import Mathlib

/-!
# rocBLAS `rocblas_trtri_trsm`: inversion of the NB x NB diagonal blocks

Shallow embedding of `library/src/blas3/rocblas_trtri_trsm.cpp`.

* `rocblas_int` is a 32-bit signed integer. C division and remainder are
  `Int.tdiv` and `Int.tmod`. The two host expressions that multiply by the
  leading dimension, `NB*lda + NB` and `blocks*NB*lda`, leave the 32-bit range
  on arguments the routine accepts and are computed with two's complement
  wrap-around (`rocblas_int_wrap`). Every other integer expression of the
  routine is a product of the template constants or is bounded by `n*NB`; those
  and the pointer arithmetic of the kernel are kept as mathematical integers.
* A device pointer is `none` for `nullptr` and otherwise carries the contents
  of the buffer it points to, addressed by element offset from the pointer.
  The source matrix, the output buffer and the scratch buffer are three
  separate allocations.
* The routines declared in headers outside this file (`rocblas_get_stream`,
  `hipMalloc`, `hipFree`, `trtri_device`, `rocblas_gemm_batched`,
  `rocblas_trtri`) are fields of `Primitives`; every call the routine issues is
  appended to a trace together with the arguments it was given.
-/

namespace TrtriTrsm

/-! ## Types of the rocBLAS interface -/

/-- Status codes of `rocblas_status`. -/
inductive rocblas_status
  | success
  | invalid_handle
  | not_implemented
  | invalid_pointer
  | invalid_size
  | memory_error
  | internal_error
  deriving DecidableEq

/-- Triangle selector `rocblas_fill`; `full` is the value that is neither
`rocblas_fill_upper` nor `rocblas_fill_lower`. -/
inductive rocblas_fill
  | upper
  | lower
  | full
  deriving DecidableEq

/-- Diagonal kind `rocblas_diagonal`. -/
inductive rocblas_diagonal
  | non_unit
  | unit
  deriving DecidableEq

/-- Transposition selector `rocblas_operation`. -/
inductive rocblas_operation
  | none
  | transpose
  | conjugate_transpose
  deriving DecidableEq

/-- Result code of a HIP runtime call. -/
inductive hipError_t
  | hipSuccess
  | hipErrorMemoryAllocation
  | hipErrorInvalidDevicePointer
  | hipErrorUnknown
  deriving DecidableEq

/-- The three device allocations the routine touches. -/
inductive Buffer
  | A
  | invA
  | C
  deriving DecidableEq

/-- A pointer into one of the device allocations: buffer and element offset. -/
structure DevPtr where
  buf : Buffer
  off : Int
  deriving DecidableEq

/-- Contents of the three device allocations. -/
structure Mem (F : Type) where
  A : Int → F
  invA : Int → F
  C : Int → F

/-- Element `i` past pointer `p`. -/
def Mem.read {F : Type} (m : Mem F) (p : DevPtr) (i : Int) : F :=
  match p.buf with
  | Buffer.A => m.A (p.off + i)
  | Buffer.invA => m.invA (p.off + i)
  | Buffer.C => m.C (p.off + i)

/-- Argument list of one `rocblas_gemm_batched` call:
`(transA, transB, m, n, k, alpha, A, lda, strideA, B, ldb, strideB, beta, C, ldc, strideC, batch)`. -/
structure GemmCall (F : Type) where
  transA : rocblas_operation
  transB : rocblas_operation
  m : Int
  n : Int
  k : Int
  alpha : F
  A : DevPtr
  lda : Int
  strideA : Int
  B : DevPtr
  ldb : Int
  strideB : Int
  beta : F
  C : DevPtr
  ldc : Int
  strideC : Int
  batch : Int
  deriving DecidableEq

/-- One entry of the operation trace: a call issued by the routine, with the
arguments it was given. Pointer arguments are element offsets from the
caller's `A` and `invA`. -/
inductive DeviceOp (F : Type)
  | rocblas_get_stream
  | hipLaunchKernel (grid threads : Int) (uplo : rocblas_fill) (diag : rocblas_diagonal)
      (n lda : Int)
  | trtri_device (hipBlockIdx_x : Nat) (uplo : rocblas_fill) (diag : rocblas_diagonal)
      (n A lda invA ldinvA : Int)
  | hipMalloc (elems : Int)
  | rocblas_gemm_batched (call : GemmCall F)
  | hipFree
  | rocblas_trtri (uplo : rocblas_fill) (diag : rocblas_diagonal)
      (n A lda invA ldinvA : Int)
  deriving DecidableEq

/-- The routines the file calls but does not define.
`RETURN_IF_ROCBLAS_ERROR` returns a status that is not success as it is;
`RETURN_IF_HIP_ERROR` returns `get_rocblas_status_for_hip_status` of a result
that is not `hipSuccess`. `trtri_device` and
`rocblas_trtri` get `(uplo, diag, n, A, offset of the sub-matrix in A, lda,
invA, offset of the destination in invA, ldinvA)` and give the new contents of
`invA`; `rocblas_gemm_batched` gets the number of earlier batched multiplies of
the run, its argument list and the memory. `scratch` is what a fresh
allocation happens to contain. -/
structure Primitives (F : Type) where
  rocblas_get_stream : rocblas_status
  hipMalloc : hipError_t
  scratch : Int → F
  hipFree : hipError_t
  get_rocblas_status_for_hip_status : hipError_t → rocblas_status
  trtri_device : rocblas_fill → rocblas_diagonal → Int → (Int → F) → Int → Int →
    (Int → F) → Int → Int → (Int → F)
  rocblas_gemm_batched : Nat → GemmCall F → Mem F → rocblas_status × Mem F
  rocblas_trtri : rocblas_fill → rocblas_diagonal → Int → (Int → F) → Int → Int →
    (Int → F) → Int → Int → rocblas_status × (Int → F)

/-- Arguments of `rocblas_trtri_trsm_template`. -/
structure Args (F : Type) where
  handle : Option Unit
  uplo : rocblas_fill
  diag : rocblas_diagonal
  n : Int
  A : Option (Int → F)
  lda : Int
  invA : Option (Int → F)

/-- What a call leaves behind: the returned status, the output buffer and the
calls issued, oldest first. -/
structure Outcome (F : Type) where
  status : rocblas_status
  invA : Option (Int → F)
  trace : List (DeviceOp F)

/-- Value of an arithmetic expression of type `rocblas_int`: the 32-bit two's
complement representative of the mathematical result. -/
def rocblas_int_wrap (x : Int) : Int :=
  (x + 2147483648) % 4294967296 - 2147483648

/-! ## The kernel -/

/-- Offset `individual_A - A` of thread block `hipBlockIdx_x`. -/
def individual_A (IB lda : Int) (hipBlockIdx_x : Nat) : Int :=
  (hipBlockIdx_x : Int) * IB * lda + (hipBlockIdx_x : Int) * IB

/-- Offset `individual_invA - invA` of thread block `hipBlockIdx_x`; the odd
thread block makes a shift. -/
def individual_invA (NB IB : Int) (hipBlockIdx_x : Nat) : Int :=
  let base : Int := ((hipBlockIdx_x / 2 : Nat) : Int) * NB * NB
  if hipBlockIdx_x % 2 = 1 then base + (NB * IB + IB) else base

/-- Body of `trtri_trsm_kernel` for one thread block: new contents of `invA`. -/
def trtri_trsm_kernel {F : Type} (NB IB : Int) (P : Primitives F) (hipBlockIdx_x : Nat)
    (uplo : rocblas_fill) (diag : rocblas_diagonal) (_n : Int)
    (A : Int → F) (lda : Int) (invA : Int → F) : Int → F :=
  P.trtri_device uplo diag IB A (individual_A IB lda hipBlockIdx_x) lda
    invA (individual_invA NB IB hipBlockIdx_x) NB

/-- The `trtri_device` call of one thread block, as a trace entry. -/
def trtri_trsm_kernel_op {F : Type} (NB IB : Int) (hipBlockIdx_x : Nat)
    (uplo : rocblas_fill) (diag : rocblas_diagonal) (lda : Int) : DeviceOp F :=
  DeviceOp.trtri_device hipBlockIdx_x uplo diag IB (individual_A IB lda hipBlockIdx_x) lda
    (individual_invA NB IB hipBlockIdx_x) NB

/-- Launch of `trtri_trsm_kernel` on `grid` thread blocks: the blocks run one
after the other in index order. -/
def hipLaunchKernel {F : Type} (NB IB : Int) (P : Primitives F) (grid : Int)
    (uplo : rocblas_fill) (diag : rocblas_diagonal) (n : Int)
    (A : Int → F) (lda : Int) (invA : Int → F) : Int → F :=
  (List.range grid.toNat).foldl
    (fun inv i => trtri_trsm_kernel NB IB P i uplo diag n A lda inv) invA

/-- Trace of a launch: the launch itself, then one `trtri_device` call per
thread block. -/
def hipLaunchKernel_trace {F : Type} (NB IB : Int) (grid : Int)
    (uplo : rocblas_fill) (diag : rocblas_diagonal) (n lda : Int) : List (DeviceOp F) :=
  DeviceOp.hipLaunchKernel grid IB uplo diag n lda ::
    (List.range grid.toNat).map (fun i => trtri_trsm_kernel_op NB IB i uplo diag lda)

/-! ## The host routine -/

/-- Offset `A12_A21_offset` chosen by `uplo`. -/
def A12_A21_offset (NB IB : Int) (uplo : rocblas_fill) : Int :=
  if uplo = rocblas_fill.lower then IB else IB * NB

/-- Offset `invA11_invA22_offset` chosen by `uplo`. -/
def invA11_invA22_offset (NB IB : Int) (uplo : rocblas_fill) : Int :=
  if uplo = rocblas_fill.lower then 0 else NB * IB + IB

/-- Offset `invA21_invA12_offset` chosen by `uplo`. -/
def invA21_invA12_offset (NB IB : Int) (uplo : rocblas_fill) : Int :=
  if uplo = rocblas_fill.lower then IB else IB * NB

/-- Argument list of the first batched multiply; `stride_A = NB*lda + NB` is a
`rocblas_int`. -/
def first_gemm {F : Type} [Field F] (NB IB : Int) (uplo : rocblas_fill) (lda blocks : Int) :
    GemmCall F :=
  { transA := rocblas_operation.none, transB := rocblas_operation.none,
    m := IB, n := IB, k := IB,
    alpha := 1,
    A := ⟨Buffer.A, A12_A21_offset NB IB uplo⟩, lda := lda,
    strideA := rocblas_int_wrap (NB * lda + NB),
    B := ⟨Buffer.invA, invA11_invA22_offset NB IB uplo⟩, ldb := NB, strideB := NB * NB,
    beta := 0,
    C := ⟨Buffer.C, 0⟩, ldc := IB, strideC := IB * IB,
    batch := blocks }

/-- Argument list of the second batched multiply. The source writes `&zero`
ahead of the second matrix; the three `(pointer, leading dimension, stride)`
groups are the left operand, the right operand and the destination, in the
order written. -/
def second_gemm {F : Type} [Field F] (NB IB : Int) (uplo : rocblas_fill) (blocks : Int) :
    GemmCall F :=
  { transA := rocblas_operation.none, transB := rocblas_operation.none,
    m := IB, n := IB, k := IB,
    alpha := -1,
    A := ⟨Buffer.invA, invA11_invA22_offset NB IB uplo⟩, lda := NB, strideA := NB * NB,
    B := ⟨Buffer.C, 0⟩, ldb := IB, strideB := IB * IB,
    beta := 0,
    C := ⟨Buffer.invA, invA21_invA12_offset NB IB uplo⟩, ldc := NB, strideC := NB * NB,
    batch := blocks }

/-- The routine after validation and the quick return, where `A` and `invA`
are known to be non-null and `n > 0` (from `hipStream_t rocblas_stream;` to the
final `return status;`). The block count `N / NB` is read as `n / NB`, and
`hipMalloc(C, ...)` as the allocation of the scratch buffer `C`. The variable
In `A + blocks*NB*lda + blocks*NB` the product `blocks*NB*lda` is a
`rocblas_int`, added to the pointer before `blocks*NB` is. The variable
`status` is assigned the result of the first batched multiply, then that of
the second, then that of `rocblas_trtri`, each assignment replacing the one
before; nothing reads it before `return status`. -/
def trtri_trsm_work {F : Type} [Field F] (NB IB : Int) (P : Primitives F)
    (uplo : rocblas_fill) (diag : rocblas_diagonal) (n : Int)
    (A : Int → F) (lda : Int) (invA : Int → F) : Outcome F :=
  -- RETURN_IF_ROCBLAS_ERROR(rocblas_get_stream(handle, &rocblas_stream));
  let t0 : List (DeviceOp F) := [DeviceOp.rocblas_get_stream]
  if P.rocblas_get_stream ≠ rocblas_status.success then
    ⟨P.rocblas_get_stream, some invA, t0⟩
  else
    -- rocblas_int blocks = N / NB;  dim3 grid(blocks * 2, 1, 1);  dim3 threads(IB, 1, 1);
    let blocks := n.tdiv NB
    -- hipLaunchKernel(trtri_trsm_kernel<T, NB, IB>, ..., uplo, diag, (blocks)*NB, A, lda, invA);
    let invA1 := hipLaunchKernel NB IB P (blocks * 2) uplo diag (blocks * NB) A lda invA
    let t1 := t0 ++ hipLaunchKernel_trace NB IB (blocks * 2) uplo diag (blocks * NB) lda
    -- RETURN_IF_HIP_ERROR(hipMalloc(C, sizeof(T) * IB * IB * blocks));
    let t2 := t1 ++ [DeviceOp.hipMalloc (IB * IB * blocks)]
    if P.hipMalloc ≠ hipError_t.hipSuccess then
      ⟨P.get_rocblas_status_for_hip_status P.hipMalloc, some invA1, t2⟩
    else
      let m0 : Mem F := ⟨A, invA1, P.scratch⟩
      -- status = rocblas_gemm_batched<T>(... first multiply ...);
      let g1 := first_gemm NB IB uplo lda blocks
      let r1 := P.rocblas_gemm_batched 0 g1 m0
      -- status = rocblas_gemm_batched<T>(... second multiply ...);
      let g2 := second_gemm NB IB uplo blocks
      let r2 := P.rocblas_gemm_batched 1 g2 r1.2
      let status := r2.1
      -- RETURN_IF_HIP_ERROR(hipFree(C));
      let t3 := t2 ++ [DeviceOp.rocblas_gemm_batched g1, DeviceOp.rocblas_gemm_batched g2,
        DeviceOp.hipFree]
      if P.hipFree ≠ hipError_t.hipSuccess then
        ⟨P.get_rocblas_status_for_hip_status P.hipFree, some r2.2.invA, t3⟩
      else if n.tmod NB ≠ 0 then
        -- status = rocblas_trtri<T>(handle, uplo, diag, n-blocks*NB,
        --            A + blocks*NB*lda + blocks*NB, lda, invA + blocks*NB*NB, NB);
        let r3 := P.rocblas_trtri uplo diag (n - blocks * NB) r2.2.A
          (rocblas_int_wrap (blocks * NB * lda) + blocks * NB) lda r2.2.invA
          (blocks * NB * NB) NB
        ⟨r3.1, some r3.2,
          t3 ++ [DeviceOp.rocblas_trtri uplo diag (n - blocks * NB)
            (rocblas_int_wrap (blocks * NB * lda) + blocks * NB) lda (blocks * NB * NB) NB]⟩
      else
        ⟨status, some r2.2.invA, t3⟩

/-- The host routine `rocblas_trtri_trsm_template<T, NB, IB>`. -/
def rocblas_trtri_trsm_template {F : Type} [Field F] (NB IB : Int) (P : Primitives F)
    (a : Args F) : Outcome F :=
  if a.handle = none then
    ⟨rocblas_status.invalid_handle, a.invA, []⟩
  else if a.uplo ≠ rocblas_fill.lower ∧ a.uplo ≠ rocblas_fill.upper then
    ⟨rocblas_status.not_implemented, a.invA, []⟩
  else if a.n < 0 then
    ⟨rocblas_status.invalid_size, a.invA, []⟩
  else
    match a.A with
    | none => ⟨rocblas_status.invalid_pointer, a.invA, []⟩
    | some A =>
      if a.lda < a.n then
        ⟨rocblas_status.invalid_size, a.invA, []⟩
      else
        match a.invA with
        | none => ⟨rocblas_status.invalid_pointer, a.invA, []⟩
        | some invA =>
          if a.n = 0 then
            ⟨rocblas_status.success, a.invA, []⟩
          else
            trtri_trsm_work NB IB P a.uplo a.diag a.n A a.lda invA

/-- Entry `i` of the output buffer after the call, when there is one. -/
def Outcome.entry {F : Type} (o : Outcome F) (i : Int) : Option F :=
  o.invA.map (fun f => f i)

/-! ## The external primitives, as the specification describes them -/

/-- Element `(r, c)` of batch member `i` of a column-major strided operand. -/
def operand {F : Type} (m : Mem F) (p : DevPtr) (ld stride : Int)
    (trans : rocblas_operation) (i r c : Nat) : F :=
  if trans = rocblas_operation.none then
    m.read p ((i : Int) * stride + (c : Int) * ld + (r : Int))
  else
    m.read p ((i : Int) * stride + (r : Int) * ld + (c : Int))

/-- Value `alpha * (A_i * B_i)(r, c) + beta * C_i(r, c)` a batched multiply
stores at `(r, c)` of batch member `i`, read from the memory `m` the call
started with. -/
def gemm_value {F : Type} [Field F] (g : GemmCall F) (m : Mem F) (i r c : Nat) : F :=
  g.alpha * ((List.range g.k.toNat).map (fun l =>
      operand m g.A g.lda g.strideA g.transA i r l *
      operand m g.B g.ldb g.strideB g.transB i l c)).sum
    + g.beta * operand m g.C g.ldc g.strideC rocblas_operation.none i r c

/-- Store `v` at element `i` past pointer `p`. -/
def Mem.write {F : Type} (m : Mem F) (p : DevPtr) (i : Int) (v : F) : Mem F :=
  match p.buf with
  | Buffer.A => { m with A := Function.update m.A (p.off + i) v }
  | Buffer.invA => { m with invA := Function.update m.invA (p.off + i) v }
  | Buffer.C => { m with C := Function.update m.C (p.off + i) v }

/-- All `(i, r, c)` with `i < batch`, `r < rows`, `c < cols`. -/
def batch_cells (batch rows cols : Nat) : List (Nat × Nat × Nat) :=
  (List.range batch).flatMap (fun i =>
    (List.range cols).flatMap (fun c =>
      (List.range rows).map (fun r => (i, r, c))))

/-- Modelled from the spec: the Batched Multiply primitive
(`rocblas_gemm_batched`, declared in `rocblas.hpp`), which executes
`batch_count` independent `C_i = alpha*A_i*B_i + beta*C_i` operations on
column-major operands located a fixed stride apart. -/
def gemm_batched_spec {F : Type} [Field F] (g : GemmCall F) (m : Mem F) : Mem F :=
  (batch_cells g.batch.toNat g.m.toNat g.n.toNat).foldl
    (fun acc cell =>
      acc.write g.C ((cell.1 : Int) * g.strideC + (cell.2.2 : Int) * g.ldc + (cell.2.1 : Int))
        (gemm_value g m cell.1 cell.2.1 cell.2.2))
    m

/-- Rows `0 .. i-1` of column `j` of the inverse of the lower triangular
matrix `T`, by forward substitution. -/
def lower_inv_col {F : Type} [Field F] (T : Nat → Nat → F) (j : Nat) : Nat → List F
  | 0 => []
  | i + 1 =>
    let prev := lower_inv_col T j i
    let x : F :=
      if i < j then 0
      else if i = j then 1 / T i i
      else -(((List.range i).map (fun k => T i k * prev.getD k 0)).sum) / T i i
    prev ++ [x]

/-- Entry `(i, j)` of the inverse of the lower triangular matrix `T`. -/
def lower_inv {F : Type} [Field F] (T : Nat → Nat → F) (i j : Nat) : F :=
  (lower_inv_col T j (i + 1)).getD i 0

/-- Entry `(r, c)` of the triangular matrix stored at offset `off` of `A`
with leading dimension `lda`: the stored value inside the `uplo` triangle, an
implicit one on the diagonal when `diag` is unit, zero in the other triangle. -/
def tri_entry {F : Type} [Field F] (uplo : rocblas_fill) (diag : rocblas_diagonal)
    (A : Int → F) (off lda : Int) (r c : Nat) : F :=
  if r = c then
    (if diag = rocblas_diagonal.unit then 1 else A (off + (c : Int) * lda + (r : Int)))
  else if uplo = rocblas_fill.lower then
    (if c < r then A (off + (c : Int) * lda + (r : Int)) else 0)
  else
    (if r < c then A (off + (c : Int) * lda + (r : Int)) else 0)

/-- Entry `(r, c)` of the inverse of the triangular matrix of `tri_entry`;
an upper triangular matrix is inverted through its transpose. -/
def tri_inv_entry {F : Type} [Field F] (uplo : rocblas_fill) (diag : rocblas_diagonal)
    (A : Int → F) (off lda : Int) (r c : Nat) : F :=
  if uplo = rocblas_fill.lower then
    lower_inv (fun i j => tri_entry uplo diag A off lda i j) r c
  else
    lower_inv (fun i j => tri_entry uplo diag A off lda j i) c r

/-- All `(r, c)` with `r < n`, `c < n`. -/
def square_cells (n : Nat) : List (Nat × Nat) :=
  (List.range n).flatMap (fun c => (List.range n).map (fun r => (r, c)))

/-- Modelled from the spec: the Block Inverter primitive (`trtri_device`,
declared in `trtri_device.h`), which given a triangular sub-block of size `n`
produces its inverse in the destination with leading dimension `ldinvA`; the
triangle of the destination opposite to `uplo` is filled with zeros. -/
def trtri_device_spec {F : Type} [Field F] (uplo : rocblas_fill) (diag : rocblas_diagonal)
    (n : Int) (A : Int → F) (Aoff lda : Int) (invA : Int → F) (invAoff ldinvA : Int) :
    Int → F :=
  (square_cells n.toNat).foldl
    (fun acc cell =>
      Function.update acc (invAoff + (cell.2 : Int) * ldinvA + (cell.1 : Int))
        (tri_inv_entry uplo diag A Aoff lda cell.1 cell.2))
    invA

/-- Primitives that compute what the specification says, reporting the given
statuses: `gemm_status i` is the status of the batched multiply issued after
`i` earlier ones. -/
def reference_primitives (F : Type) [Field F] (stream : rocblas_status)
    (malloc free : hipError_t) (gemm_status : Nat → rocblas_status)
    (trtri_status : rocblas_status) : Primitives F :=
  { rocblas_get_stream := stream
    hipMalloc := malloc
    scratch := fun _ => 0
    hipFree := free
    get_rocblas_status_for_hip_status := fun e =>
      match e with
      | hipError_t.hipSuccess => rocblas_status.success
      | hipError_t.hipErrorMemoryAllocation => rocblas_status.memory_error
      | hipError_t.hipErrorInvalidDevicePointer => rocblas_status.invalid_pointer
      | hipError_t.hipErrorUnknown => rocblas_status.internal_error
    trtri_device := trtri_device_spec
    rocblas_gemm_batched := fun i g m => (gemm_status i, gemm_batched_spec g m)
    rocblas_trtri := fun uplo diag n A Aoff lda invA invAoff ldinvA =>
      (trtri_status, trtri_device_spec uplo diag n A Aoff lda invA invAoff ldinvA) }

/-- Reference primitives on which every step reports success. -/
def all_succeed (F : Type) [Field F] : Primitives F :=
  reference_primitives F rocblas_status.success hipError_t.hipSuccess hipError_t.hipSuccess
    (fun _ => rocblas_status.success) rocblas_status.success

/-- Column-major buffer holding the listed elements, zero elsewhere. -/
def buffer_of {F : Type} [Field F] (l : List F) : Int → F :=
  fun i => if i < 0 then 0 else l.getD i.toNat 0

/-! ## Validation as the specification lists it -/

/-- The six validation checks in the order the specification lists them, each
with whether it fails on `a` and the status it reports. -/
def spec_validation_checks {F : Type} (a : Args F) : List (Bool × rocblas_status) :=
  [ (a.handle.isNone, rocblas_status.invalid_handle),
    (decide (a.uplo ≠ rocblas_fill.lower ∧ a.uplo ≠ rocblas_fill.upper),
      rocblas_status.not_implemented),
    (decide (a.n < 0), rocblas_status.invalid_size),
    (a.A.isNone, rocblas_status.invalid_pointer),
    (decide (a.lda < a.n), rocblas_status.invalid_size),
    (a.invA.isNone, rocblas_status.invalid_pointer) ]

/-- Status of the first failing check of the specification's list, if any. -/
def spec_first_failing_check {F : Type} (a : Args F) : Option rocblas_status :=
  ((spec_validation_checks a).find? (fun c => c.1)).map (fun c => c.2)

/-! ## Reading the trace -/

/-- Whether a trace entry is the scratch allocation. -/
def DeviceOp.is_malloc {F : Type} : DeviceOp F → Bool
  | DeviceOp.hipMalloc _ => true
  | _ => false

/-- Whether a trace entry is the scratch release. -/
def DeviceOp.is_free {F : Type} : DeviceOp F → Bool
  | DeviceOp.hipFree => true
  | _ => false

/-- Whether a trace entry is the remainder inversion. -/
def DeviceOp.is_remainder {F : Type} : DeviceOp F → Bool
  | DeviceOp.rocblas_trtri _ _ _ _ _ _ _ => true
  | _ => false

/-- Whether a trace entry is a batched multiply. -/
def DeviceOp.is_gemm {F : Type} : DeviceOp F → Bool
  | DeviceOp.rocblas_gemm_batched _ => true
  | _ => false

/-- Number of scratch allocations issued. -/
def allocations {F : Type} (t : List (DeviceOp F)) : Nat :=
  (t.filter DeviceOp.is_malloc).length

/-- Number of scratch releases issued. -/
def releases {F : Type} (t : List (DeviceOp F)) : Nat :=
  (t.filter DeviceOp.is_free).length

/-- The scratch buffer across one trace entry: `some true` while allocated,
`some false` while not, `none` once an allocation hit a live buffer or a
release hit a buffer that is not live. An allocation that fails leaves the
buffer not allocated. -/
def scratch_step {F : Type} (malloc_ok : Bool) (st : Option Bool) (op : DeviceOp F) :
    Option Bool :=
  match st, op with
  | some false, DeviceOp.hipMalloc _ => some malloc_ok
  | some true, DeviceOp.hipMalloc _ => none
  | some true, DeviceOp.hipFree => some false
  | some false, DeviceOp.hipFree => none
  | s, _ => s

/-- The scratch buffer at the end of a trace that starts with no buffer. -/
def scratch_after {F : Type} (malloc_ok : Bool) (t : List (DeviceOp F)) : Option Bool :=
  t.foldl (scratch_step malloc_ok) (some false)

/-! ## Concrete calls -/

/-- Lower triangular `[[1, 0], [1, 2]]`, column-major with `lda = 2`, output
buffer pre-filled with sevens. -/
def lower_2x2 : Args ℚ :=
  { handle := some (), uplo := rocblas_fill.lower, diag := rocblas_diagonal.non_unit,
    n := 2, A := some (buffer_of [1, 1, 0, 2]), lda := 2, invA := some (fun _ => 7) }

/-- Lower triangular `[[1, 0, 0], [1, 2, 0], [1, 1, 4]]`, column-major with
`lda = 3`. -/
def lower_3x3 : Args ℚ :=
  { handle := some (), uplo := rocblas_fill.lower, diag := rocblas_diagonal.non_unit,
    n := 3, A := some (buffer_of [1, 1, 1, 0, 2, 1, 0, 0, 4]), lda := 3,
    invA := some (fun _ => 7) }

/-- Reference primitives whose first batched multiply reports
`internal_error` while every other step succeeds. -/
def first_gemm_fails : Primitives ℚ :=
  reference_primitives ℚ rocblas_status.success hipError_t.hipSuccess hipError_t.hipSuccess
    (fun i => if i = 0 then rocblas_status.internal_error else rocblas_status.success)
    rocblas_status.success

/-- Reference primitives whose second batched multiply reports
`internal_error` while every other step succeeds. -/
def second_gemm_fails : Primitives ℚ :=
  reference_primitives ℚ rocblas_status.success hipError_t.hipSuccess hipError_t.hipSuccess
    (fun i => if i = 1 then rocblas_status.internal_error else rocblas_status.success)
    rocblas_status.success

/-- A call in which every argument is defective at once. -/
def all_defects : Args ℚ :=
  { handle := none, uplo := rocblas_fill.full, diag := rocblas_diagonal.non_unit,
    n := -1, A := none, lda := -2, invA := none }

/-! ## Index sets -/

/-- Indices of a column-major `rows x cols` region with leading dimension
`ld` starting at `base`. -/
def region (base ld : Int) (rows cols : Nat) : List Int :=
  (List.range cols).flatMap (fun (c : Nat) =>
    (List.range rows).map (fun (r : Nat) => base + (c : Int) * ld + (r : Int)))

/-- Indices of the output buffer a call writes, from its arguments: the
`n x n` destination of an inversion, the `m x n` destinations of a batched
multiply whose result goes to the output buffer. -/
def DeviceOp.invA_writes {F : Type} : DeviceOp F → List Int
  | DeviceOp.trtri_device _ _ _ n _ _ invA ldinvA => region invA ldinvA n.toNat n.toNat
  | DeviceOp.rocblas_trtri _ _ n _ _ invA ldinvA => region invA ldinvA n.toNat n.toNat
  | DeviceOp.rocblas_gemm_batched g =>
    if g.C.buf = Buffer.invA then
      (List.range g.batch.toNat).flatMap (fun (i : Nat) =>
        region (g.C.off + (i : Int) * g.strideC) g.ldc g.m.toNat g.n.toNat)
    else []
  | _ => []

/-- Indices of the source matrix addressed by the left operand of a batched
multiply, when that operand lies in the source matrix. -/
def GemmCall.A_reads {F : Type} (g : GemmCall F) : List Int :=
  if g.A.buf = Buffer.A then
    (List.range g.batch.toNat).flatMap (fun (i : Nat) =>
      region (g.A.off + (i : Int) * g.strideA) g.lda g.m.toNat g.k.toNat)
  else []

/-- The batched multiplies of a trace, oldest first. -/
def gemm_calls {F : Type} : List (DeviceOp F) → List (GemmCall F)
  | [] => []
  | DeviceOp.rocblas_gemm_batched g :: t => g :: gemm_calls t
  | _ :: t => gemm_calls t

/-- Number of `NB x NB` slots of the output buffer, `ceil(n / NB)`. -/
def ceil_div (n NB : Int) : Int := (n + NB - 1) / NB

/-- Upper triangular 4 x 4 matrix, column-major with `lda = 4`. -/
def upper_4x4 : Args ℚ :=
  { handle := some (), uplo := rocblas_fill.upper, diag := rocblas_diagonal.non_unit,
    n := 4, A := some (buffer_of [1, 0, 0, 0, 1, 2, 0, 0, 1, 1, 3, 0, 1, 1, 1, 4]), lda := 4,
    invA := some (fun _ => 0) }

/-- Lower triangular 5 x 5 matrix with ones on and below the diagonal,
column-major with `lda = 5`. -/
def lower_5x5 : Args ℚ :=
  { handle := some (), uplo := rocblas_fill.lower, diag := rocblas_diagonal.non_unit,
    n := 5, A := some (fun i => if i % 5 < i / 5 then 0 else 1), lda := 5,
    invA := some (fun _ => 0) }

/-- Entry `(r, c)` of slot `k` of the output buffer, read in the `uplo`
triangle with the opposite triangle taken as zero. -/
def slot_entry {F : Type} [Field F] (uplo : rocblas_fill) (NB : Int) (invA : Int → F)
    (k r c : Nat) : F :=
  if (uplo = rocblas_fill.lower ∧ r < c) ∨ (uplo ≠ rocblas_fill.lower ∧ c < r) then 0
  else invA ((k : Int) * NB * NB + (c : Int) * NB + (r : Int))

/-- Entry `(r, c)` of the product of the `k`-th `NB x NB` diagonal block of
`A` with slot `k` of the output buffer. -/
def block_times_slot {F : Type} [Field F] (uplo : rocblas_fill) (diag : rocblas_diagonal)
    (NB : Int) (A : Int → F) (lda : Int) (invA : Int → F) (k r c : Nat) : F :=
  ((List.range NB.toNat).map (fun l =>
    tri_entry uplo diag A ((k : Int) * (NB * lda + NB)) lda r l *
      slot_entry uplo NB invA k l c)).sum

/-! ## Contracts of the external primitives -/

/-- Whether `(r, c)` lies in the triangle opposite to `uplo`. -/
def opposite_triangle (uplo : rocblas_fill) (r c : Int) : Prop :=
  (uplo = rocblas_fill.lower ∧ r < c) ∨ (uplo = rocblas_fill.upper ∧ c < r)

/-- The Block Inverter writes nothing outside the `n x n` destination it is
given. -/
def trtri_device_frame {F : Type} (P : Primitives F) : Prop :=
  ∀ uplo diag n A Aoff lda invA invAoff ldinvA idx,
    idx ∉ region invAoff ldinvA n.toNat n.toNat →
    P.trtri_device uplo diag n A Aoff lda invA invAoff ldinvA idx = invA idx

/-- The Block Inverter zeroes the triangle opposite to `uplo` of the `n x n`
destination it writes, when the leading dimension of the destination is at
least `n`. -/
def trtri_device_zeroes_opposite {F : Type} [Field F] (P : Primitives F) : Prop :=
  ∀ uplo diag n A Aoff lda invA invAoff ldinvA (r c : Nat),
    n ≤ ldinvA → r < n.toNat → c < n.toNat → opposite_triangle uplo r c →
    P.trtri_device uplo diag n A Aoff lda invA invAoff ldinvA
      (invAoff + (c : Int) * ldinvA + (r : Int)) = 0

/-- The Batched Multiply changes the output buffer only at the indices of its
destination matrices. -/
def gemm_batched_frame {F : Type} (P : Primitives F) : Prop :=
  ∀ i g m idx, idx ∉ (DeviceOp.rocblas_gemm_batched g).invA_writes →
    (P.rocblas_gemm_batched i g m).2.invA idx = m.invA idx
/-- Lower triangular `[[2,0,0,0],[1,3,0,0],[1,1,4,0],[1,1,1,5]]`, column-major
with `lda = 4`, output buffer pre-filled with sevens. -/
def lower_4x4 : Args ℚ :=
  { handle := some (), uplo := rocblas_fill.lower, diag := rocblas_diagonal.non_unit,
    n := 4, A := some (buffer_of [2, 1, 1, 1, 0, 3, 1, 1, 0, 0, 4, 1, 0, 0, 0, 5]), lda := 4,
    invA := some (fun _ => 7) }

/-- Indices of the source matrix a call addresses through its matrix operand,
from its arguments: the `n x n` source of an inversion, the left operand of a
batched multiply. -/
def DeviceOp.A_reads {F : Type} : DeviceOp F → List Int
  | DeviceOp.trtri_device _ _ _ n A lda _ _ => region A lda n.toNat n.toNat
  | DeviceOp.rocblas_trtri _ _ n A lda _ _ => region A lda n.toNat n.toNat
  | DeviceOp.rocblas_gemm_batched g => g.A_reads
  | _ => []

/-- What the Block Inverter stores in its `n x n` destination does not depend
on what the output buffer held before, when the leading dimension of the
destination is at least `n`. -/
def trtri_device_ignores_destination {F : Type} (P : Primitives F) : Prop :=
  ∀ uplo diag n A Aoff lda invA invA' invAoff ldinvA idx, n ≤ ldinvA →
    idx ∈ region invAoff ldinvA n.toNat n.toNat →
    P.trtri_device uplo diag n A Aoff lda invA invAoff ldinvA idx =
      P.trtri_device uplo diag n A Aoff lda invA' invAoff ldinvA idx

/-- The Batched Multiply leaves the memory the specification describes:
`C_i = alpha*A_i*B_i + beta*C_i` for every batch member. -/
def gemm_batched_exact {F : Type} [Field F] (P : Primitives F) : Prop :=
  ∀ i g m, (P.rocblas_gemm_batched i g m).2 = gemm_batched_spec g m

/-- Whether `(r, c)` of a slot lies in the off-diagonal quadrant opposite to
`uplo`: upper right for lower, lower left for upper. -/
def untouched_quadrant (uplo : rocblas_fill) (IB r c : Int) : Prop :=
  (uplo = rocblas_fill.lower ∧ r < IB ∧ IB ≤ c) ∨ (uplo = rocblas_fill.upper ∧ c < IB ∧ IB ≤ r)

/-- Reference primitives on which `hipFree` reports a failure while every
other step succeeds. -/
def release_fails : Primitives ℚ :=
  reference_primitives ℚ rocblas_status.success hipError_t.hipSuccess
    hipError_t.hipErrorInvalidDevicePointer (fun _ => rocblas_status.success)
    rocblas_status.success

/-- Lower triangular 5 x 5 matrix with ones on and below the diagonal, stored
with leading dimension `2^29`. -/
def wide_5x5 : Args ℚ :=
  { handle := some (), uplo := rocblas_fill.lower, diag := rocblas_diagonal.non_unit,
    n := 5, A := some (fun i => if i % 536870912 < i / 536870912 then 0 else 1),
    lda := 536870912, invA := some (fun _ => 0) }

/-- Lower triangular 8 x 8 matrix with ones on and below the diagonal, stored
with leading dimension `2^29`. -/
def wide_8x8 : Args ℚ :=
  { handle := some (), uplo := rocblas_fill.lower, diag := rocblas_diagonal.non_unit,
    n := 8, A := some (fun i => if i % 536870912 < i / 536870912 then 0 else 1),
    lda := 536870912, invA := some (fun _ => 0) }

/-! # Theorems -/

/-! ## Validation, quick return, status -/

theorem rocblas_trtri_trsm_template_of_valid {F : Type} [Field F] (NB IB : Int)
    (P : Primitives F) (a : Args F) (A invA : Int → F)
    (hh : a.handle ≠ none)
    (hu : a.uplo = rocblas_fill.lower ∨ a.uplo = rocblas_fill.upper)
    (hA : a.A = some A) (hl : a.n ≤ a.lda) (hI : a.invA = some invA) (hn : 0 < a.n) :
    rocblas_trtri_trsm_template NB IB P a =
      trtri_trsm_work NB IB P a.uplo a.diag a.n A a.lda invA := by
  have h1 : ¬ (a.uplo ≠ rocblas_fill.lower ∧ a.uplo ≠ rocblas_fill.upper) := by
    rcases hu with h | h <;> simp [h]
  have h2 : ¬ a.n < 0 := by omega
  have h3 : ¬ a.lda < a.n := by omega
  have h4 : a.n ≠ 0 := by omega
  simp only [rocblas_trtri_trsm_template, hh, h1, h2, h3, h4, hA, hI, if_false]

/-- The specification's ordered list of checks, as a chain of tests. -/
theorem spec_first_failing_check_eq {F : Type} (a : Args F) :
    spec_first_failing_check a =
      if a.handle = none then some rocblas_status.invalid_handle
      else if a.uplo ≠ rocblas_fill.lower ∧ a.uplo ≠ rocblas_fill.upper then
        some rocblas_status.not_implemented
      else if a.n < 0 then some rocblas_status.invalid_size
      else if a.A.isNone then some rocblas_status.invalid_pointer
      else if a.lda < a.n then some rocblas_status.invalid_size
      else if a.invA.isNone then some rocblas_status.invalid_pointer
      else none := by
  obtain ⟨handle, uplo, diag, n, A, lda, invA⟩ := a
  by_cases hn : n < 0 <;> by_cases hl : lda < n <;>
    cases handle <;> cases uplo <;> cases A <;> cases invA <;>
    simp [spec_first_failing_check, spec_validation_checks, List.find?, hn, hl]

/-- The routine's status and trace whenever some check of the chain fails. -/
theorem rocblas_trtri_trsm_template_of_invalid {F : Type} [Field F] (NB IB : Int)
    (P : Primitives F) (a : Args F) (s : rocblas_status)
    (h : spec_first_failing_check a = some s) :
    rocblas_trtri_trsm_template NB IB P a = ⟨s, a.invA, []⟩ := by
  rw [spec_first_failing_check_eq] at h
  obtain ⟨handle, uplo, diag, n, A, lda, invA⟩ := a
  simp only [rocblas_trtri_trsm_template]
  simp only at h
  cases handle with
  | none => simp at h; simp [← h]
  | some hd =>
    by_cases h2 : uplo ≠ rocblas_fill.lower ∧ uplo ≠ rocblas_fill.upper
    · simp [h2] at h; simp [h2, ← h]
    · by_cases h3 : n < 0
      · simp [h2, h3] at h; simp [h2, h3, ← h]
      · cases A with
        | none => simp [h2, h3] at h; simp [h2, h3, ← h]
        | some Ab =>
          by_cases h5 : lda < n
          · simp [h2, h3, h5] at h; simp [h2, h3, h5, ← h]
          · cases invA with
            | none => simp [h2, h3, h5] at h; simp [h2, h3, h5, ← h]
            | some Ib => simp [h2, h3, h5] at h

/-- C2: the routine returns the status of the first failing validation check
in the order null handle, bad uplo, negative n, null A, lda < n, null invA,
and issues no call after it. -/
theorem validation_order {F : Type} [Field F] (NB IB : Int) (P : Primitives F)
    (a : Args F) (s : rocblas_status) (h : spec_first_failing_check a = some s) :
    (rocblas_trtri_trsm_template NB IB P a).status = s ∧
    (rocblas_trtri_trsm_template NB IB P a).trace = [] ∧
    (a.handle = none → s = rocblas_status.invalid_handle) ∧
    (a.handle ≠ none → (a.uplo ≠ rocblas_fill.lower ∧ a.uplo ≠ rocblas_fill.upper) →
      s = rocblas_status.not_implemented) ∧
    (a.handle ≠ none → ¬ (a.uplo ≠ rocblas_fill.lower ∧ a.uplo ≠ rocblas_fill.upper) →
      a.n < 0 → s = rocblas_status.invalid_size) := by
  rw [rocblas_trtri_trsm_template_of_invalid NB IB P a s h]
  rw [spec_first_failing_check_eq] at h
  refine ⟨rfl, rfl, ?_, ?_, ?_⟩
  · intro h1; rw [if_pos h1] at h; exact (Option.some.inj h).symm
  · intro h1 h2; rw [if_neg h1, if_pos h2] at h; exact (Option.some.inj h).symm
  · intro h1 h2 h3; rw [if_neg h1, if_neg h2, if_pos h3] at h; exact (Option.some.inj h).symm

theorem validation_order_witness :
    spec_first_failing_check all_defects = some rocblas_status.invalid_handle ∧
    (rocblas_trtri_trsm_template 2 1 (all_succeed ℚ) all_defects).status
      = rocblas_status.invalid_handle :=
  ⟨by decide, (validation_order 2 1 (all_succeed ℚ) all_defects _ (by decide)).1⟩

theorem spec_first_failing_check_of_defect {F : Type} (a : Args F)
    (h : a.handle = none ∨ (a.uplo ≠ rocblas_fill.lower ∧ a.uplo ≠ rocblas_fill.upper) ∨
      a.n < 0 ∨ a.A = none ∨ a.lda < a.n ∨ a.invA = none) :
    ∃ s, spec_first_failing_check a = some s ∧ s ≠ rocblas_status.success := by
  rw [spec_first_failing_check_eq]
  split_ifs with h1 h2 h3 h4 h5 h6
  · exact ⟨_, rfl, by decide⟩
  · exact ⟨_, rfl, by decide⟩
  · exact ⟨_, rfl, by decide⟩
  · exact ⟨_, rfl, by decide⟩
  · exact ⟨_, rfl, by decide⟩
  · exact ⟨_, rfl, by decide⟩
  · exfalso
    rcases h with h | h | h | h | h | h
    · exact h1 h
    · exact h2 h
    · exact h3 h
    · rw [h] at h4; exact h4 rfl
    · exact h5 h
    · rw [h] at h6; exact h6 rfl

/-- C6: when any validation check fails the routine issues no call at all and
leaves the output buffer as it was; `lda < n` with the earlier checks passing
gives `invalid_size`. -/
theorem no_side_effects_on_configuration_error {F : Type} [Field F] (NB IB : Int)
    (P : Primitives F) (a : Args F)
    (h : a.handle = none ∨ (a.uplo ≠ rocblas_fill.lower ∧ a.uplo ≠ rocblas_fill.upper) ∨
      a.n < 0 ∨ a.A = none ∨ a.lda < a.n ∨ a.invA = none) :
    (rocblas_trtri_trsm_template NB IB P a).trace = [] ∧
    (rocblas_trtri_trsm_template NB IB P a).invA = a.invA ∧
    (rocblas_trtri_trsm_template NB IB P a).status ≠ rocblas_status.success ∧
    (a.handle ≠ none → (a.uplo = rocblas_fill.lower ∨ a.uplo = rocblas_fill.upper) →
      0 ≤ a.n → a.A ≠ none → a.lda < a.n →
      (rocblas_trtri_trsm_template NB IB P a).status = rocblas_status.invalid_size) := by
  obtain ⟨s, hs, hne⟩ := spec_first_failing_check_of_defect a h
  rw [rocblas_trtri_trsm_template_of_invalid NB IB P a s hs]
  refine ⟨rfl, rfl, hne, ?_⟩
  intro h1 h2 h3 h4 h5
  rw [spec_first_failing_check_eq] at hs
  have h2' : ¬ (a.uplo ≠ rocblas_fill.lower ∧ a.uplo ≠ rocblas_fill.upper) := by
    rcases h2 with h | h <;> simp [h]
  have h4' : ¬ a.A.isNone = true := by
    cases hA : a.A with
    | none => exact absurd hA h4
    | some x => simp
  rw [if_neg h1, if_neg h2', if_neg (by omega), if_neg h4', if_pos h5] at hs
  exact (Option.some.inj hs).symm

theorem no_side_effects_on_configuration_error_witness :
    (rocblas_trtri_trsm_template 2 1 (all_succeed ℚ)
      { lower_2x2 with lda := 1 }).trace = [] ∧
    (rocblas_trtri_trsm_template 2 1 (all_succeed ℚ)
      { lower_2x2 with lda := 1 }).status = rocblas_status.invalid_size :=
  have h := no_side_effects_on_configuration_error 2 1 (all_succeed ℚ)
    { lower_2x2 with lda := 1 }
    (Or.inr (Or.inr (Or.inr (Or.inr (Or.inl (by decide))))))
  ⟨h.1, h.2.2.2 (by decide) (by decide) (by decide) (by simp [lower_2x2]) (by decide)⟩

/-- C7: with `n = 0` and the other validation checks passing, the routine
returns success, issues no call and leaves the output buffer as it was. -/
theorem quick_return {F : Type} [Field F] (NB IB : Int) (P : Primitives F) (a : Args F)
    (hh : a.handle ≠ none)
    (hu : a.uplo = rocblas_fill.lower ∨ a.uplo = rocblas_fill.upper)
    (hA : a.A ≠ none) (hl : 0 ≤ a.lda) (hI : a.invA ≠ none) (hn : a.n = 0) :
    (rocblas_trtri_trsm_template NB IB P a).status = rocblas_status.success ∧
    (rocblas_trtri_trsm_template NB IB P a).trace = [] ∧
    (rocblas_trtri_trsm_template NB IB P a).invA = a.invA := by
  obtain ⟨handle, uplo, diag, n, A, lda, invA⟩ := a
  simp only at hh hu hA hl hI hn
  have h1 : ¬ (uplo ≠ rocblas_fill.lower ∧ uplo ≠ rocblas_fill.upper) := by
    rcases hu with h | h <;> simp [h]
  subst hn
  have h3 : ¬ lda < 0 := by omega
  cases A with
  | none => exact absurd rfl hA
  | some Ab =>
    cases invA with
    | none => exact absurd rfl hI
    | some Ib => simp [rocblas_trtri_trsm_template, hh, h1, h3]

theorem quick_return_witness :
    (rocblas_trtri_trsm_template 2 1 (all_succeed ℚ)
      { lower_2x2 with n := 0 }).status = rocblas_status.success ∧
    (rocblas_trtri_trsm_template 2 1 (all_succeed ℚ)
      { lower_2x2 with n := 0 }).trace = [] :=
  have h := quick_return 2 1 (all_succeed ℚ) { lower_2x2 with n := 0 }
    (by decide) (by decide) (by simp [lower_2x2]) (by decide) (by simp [lower_2x2]) rfl
  ⟨h.1, h.2.1⟩

/-- C3: the first batched multiply reports `internal_error`, every later step
succeeds, and the routine returns success; likewise a failure of the second
batched multiply is replaced by the status of the remainder inversion. -/
theorem gemm_failure_is_lost :
    (∀ g m, (first_gemm_fails.rocblas_gemm_batched 0 g m).1 = rocblas_status.internal_error) ∧
    (rocblas_trtri_trsm_template 2 1 first_gemm_fails lower_2x2).status
      = rocblas_status.success ∧
    (∀ g m, (second_gemm_fails.rocblas_gemm_batched 1 g m).1
      = rocblas_status.internal_error) ∧
    (rocblas_trtri_trsm_template 2 1 second_gemm_fails lower_3x3).status
      = rocblas_status.success := by
  refine ⟨fun _ _ => rfl, ?_, fun _ _ => rfl, ?_⟩
  · decide
  · decide

/-! ## The trace of a run -/

theorem foldl_scratch_step_kernel_ops {F : Type} (NB IB : Int) (uplo : rocblas_fill)
    (diag : rocblas_diagonal) (lda : Int) (ok : Bool) (l : List Nat) (st : Option Bool) :
    (l.map (fun i => (trtri_trsm_kernel_op NB IB i uplo diag lda : DeviceOp F))).foldl
      (scratch_step ok) st = st := by
  induction l with
  | nil => rfl
  | cons i l ih =>
    simp only [List.map_cons, List.foldl_cons]
    have : scratch_step ok st (trtri_trsm_kernel_op NB IB i uplo diag lda : DeviceOp F) = st := by
      cases st with
      | none => rfl
      | some b => cases b <;> rfl
    rw [this, ih]

theorem foldl_scratch_step_launch {F : Type} (NB IB grid : Int) (uplo : rocblas_fill)
    (diag : rocblas_diagonal) (n lda : Int) (ok : Bool) (st : Option Bool) :
    (hipLaunchKernel_trace NB IB grid uplo diag n lda : List (DeviceOp F)).foldl
      (scratch_step ok) st = st := by
  simp only [hipLaunchKernel_trace, List.foldl_cons]
  have : scratch_step ok st (DeviceOp.hipLaunchKernel grid IB uplo diag n lda : DeviceOp F)
      = st := by
    cases st with
    | none => rfl
    | some b => cases b <;> rfl
  rw [this, foldl_scratch_step_kernel_ops]

theorem filter_launch {F : Type} (NB IB grid : Int) (uplo : rocblas_fill)
    (diag : rocblas_diagonal) (n lda : Int) (p : DeviceOp F → Bool)
    (h1 : ∀ g t u d m l, p (DeviceOp.hipLaunchKernel g t u d m l) = false)
    (h2 : ∀ i u d m a l v w, p (DeviceOp.trtri_device i u d m a l v w) = false) :
    (hipLaunchKernel_trace NB IB grid uplo diag n lda : List (DeviceOp F)).filter p = [] := by
  rw [List.filter_eq_nil_iff]
  intro op hop
  simp only [hipLaunchKernel_trace, List.mem_cons, List.mem_map, List.mem_range] at hop
  rcases hop with rfl | ⟨i, _, rfl⟩
  · simp [h1]
  · simp [trtri_trsm_kernel_op, h2]

/-- The five shapes of the trace of the routine's working part. -/
theorem trtri_trsm_work_trace {F : Type} [Field F] (NB IB : Int) (P : Primitives F)
    (uplo : rocblas_fill) (diag : rocblas_diagonal) (n : Int)
    (A : Int → F) (lda : Int) (invA : Int → F) :
    (trtri_trsm_work NB IB P uplo diag n A lda invA).trace =
      if P.rocblas_get_stream ≠ rocblas_status.success then [DeviceOp.rocblas_get_stream]
      else
        [DeviceOp.rocblas_get_stream]
          ++ hipLaunchKernel_trace NB IB (n.tdiv NB * 2) uplo diag (n.tdiv NB * NB) lda
          ++ [DeviceOp.hipMalloc (IB * IB * n.tdiv NB)]
          ++ (if P.hipMalloc ≠ hipError_t.hipSuccess then []
              else
                [DeviceOp.rocblas_gemm_batched (first_gemm NB IB uplo lda (n.tdiv NB)),
                 DeviceOp.rocblas_gemm_batched (second_gemm NB IB uplo (n.tdiv NB)),
                 DeviceOp.hipFree]
                ++ (if P.hipFree ≠ hipError_t.hipSuccess then []
                    else if n.tmod NB ≠ 0 then
                      [DeviceOp.rocblas_trtri uplo diag (n - n.tdiv NB * NB)
                        (rocblas_int_wrap (n.tdiv NB * NB * lda) + n.tdiv NB * NB) lda
                        (n.tdiv NB * NB * NB) NB]
                    else [])) := by
  unfold trtri_trsm_work
  by_cases h0 : P.rocblas_get_stream ≠ rocblas_status.success
  · simp only [if_pos h0]
  · by_cases h1 : P.hipMalloc ≠ hipError_t.hipSuccess
    · simp only [if_neg h0, if_pos h1, List.append_nil]
    · by_cases h2 : P.hipFree ≠ hipError_t.hipSuccess
      · simp only [if_neg h0, if_neg h1, if_pos h2, List.append_nil]
      · by_cases h3 : n.tmod NB ≠ 0
        · simp only [if_neg h0, if_neg h1, if_neg h2, if_pos h3, List.append_assoc]
        · simp only [if_neg h0, if_neg h1, if_neg h2, if_neg h3, List.append_nil]

/-- Every call either fails validation or quick-returns with an empty trace,
or runs the working part. -/
theorem rocblas_trtri_trsm_template_cases {F : Type} [Field F] (NB IB : Int)
    (P : Primitives F) (a : Args F) :
    (rocblas_trtri_trsm_template NB IB P a).trace = [] ∨
    ∃ A invA, a.handle ≠ none ∧
      (a.uplo = rocblas_fill.lower ∨ a.uplo = rocblas_fill.upper) ∧
      a.A = some A ∧ a.n ≤ a.lda ∧ a.invA = some invA ∧ 0 < a.n ∧
      rocblas_trtri_trsm_template NB IB P a =
        trtri_trsm_work NB IB P a.uplo a.diag a.n A a.lda invA := by
  by_cases hh : a.handle = none
  · left; simp [rocblas_trtri_trsm_template, hh]
  by_cases hu : a.uplo ≠ rocblas_fill.lower ∧ a.uplo ≠ rocblas_fill.upper
  · left; simp [rocblas_trtri_trsm_template, hh, hu]
  by_cases hn : a.n < 0
  · left; simp [rocblas_trtri_trsm_template, hh, hu, hn]
  cases hA : a.A with
  | none => left; simp [rocblas_trtri_trsm_template, hh, hu, hn, hA]
  | some Ab =>
    by_cases hl : a.lda < a.n
    · left; simp [rocblas_trtri_trsm_template, hh, hu, hn, hA, hl]
    cases hI : a.invA with
    | none => left; simp [rocblas_trtri_trsm_template, hh, hu, hn, hA, hl, hI]
    | some Ib =>
      by_cases h0 : a.n = 0
      · left
        have hl0 : ¬ a.lda < 0 := by omega
        simp [rocblas_trtri_trsm_template, hh, hu, hA, hI, h0, hl0]
      · right
        have hu' : a.uplo = rocblas_fill.lower ∨ a.uplo = rocblas_fill.upper := by
          by_contra hc
          exact hu ⟨fun h => hc (Or.inl h), fun h => hc (Or.inr h)⟩
        exact ⟨Ab, Ib, hh, hu', rfl, by omega, rfl, by omega,
          rocblas_trtri_trsm_template_of_valid NB IB P a Ab Ib hh hu' hA (by omega) hI
            (by omega)⟩

/-- C8: the scratch buffer is never left allocated: along every trace it is
allocated at most once, a successful allocation is followed by exactly one
release, no release is issued without one, whatever the batched multiplies
report. -/
theorem scratch_released {F : Type} [Field F] (NB IB : Int) (P : Primitives F) (a : Args F) :
    scratch_after (decide (P.hipMalloc = hipError_t.hipSuccess))
      (rocblas_trtri_trsm_template NB IB P a).trace = some false ∧
    allocations (rocblas_trtri_trsm_template NB IB P a).trace ≤ 1 ∧
    releases (rocblas_trtri_trsm_template NB IB P a).trace =
      if allocations (rocblas_trtri_trsm_template NB IB P a).trace = 1 ∧
          P.hipMalloc = hipError_t.hipSuccess then 1 else 0 := by
  rcases rocblas_trtri_trsm_template_cases NB IB P a with h | ⟨A, invA, -, -, -, -, -, -, h⟩
  · rw [h]; simp [scratch_after, allocations, releases]
  · rw [h, trtri_trsm_work_trace]
    have hf1 := fun g => filter_launch (F := F) NB IB g a.uplo a.diag (a.n.tdiv NB * NB) a.lda
      DeviceOp.is_malloc (fun _ _ _ _ _ _ => rfl) (fun _ _ _ _ _ _ _ _ => rfl)
    have hf2 := fun g => filter_launch (F := F) NB IB g a.uplo a.diag (a.n.tdiv NB * NB) a.lda
      DeviceOp.is_free (fun _ _ _ _ _ _ => rfl) (fun _ _ _ _ _ _ _ _ => rfl)
    by_cases h0 : P.rocblas_get_stream ≠ rocblas_status.success
    · simp [h0, scratch_after, allocations, releases, scratch_step, DeviceOp.is_malloc,
        DeviceOp.is_free]
    · by_cases h1 : P.hipMalloc ≠ hipError_t.hipSuccess
      · simp [h0, h1, scratch_after, allocations, releases, scratch_step, DeviceOp.is_malloc,
          DeviceOp.is_free, List.foldl_append, foldl_scratch_step_launch, hf1, hf2,
          List.filter_append]
      · have h1' : P.hipMalloc = hipError_t.hipSuccess := not_not.mp h1
        by_cases h2 : P.hipFree ≠ hipError_t.hipSuccess
        · simp [h0, h1', h2, scratch_after, allocations, releases, scratch_step,
            DeviceOp.is_malloc, DeviceOp.is_free, List.foldl_append,
            foldl_scratch_step_launch, hf1, hf2, List.filter_append]
        · by_cases h3 : a.n.tmod NB ≠ 0
          · simp [h0, h1', h2, h3, scratch_after, allocations, releases, scratch_step,
              DeviceOp.is_malloc, DeviceOp.is_free, List.foldl_append,
              foldl_scratch_step_launch, hf1, hf2, List.filter_append]
          · simp [h0, h1', h2, h3, scratch_after, allocations, releases, scratch_step,
              DeviceOp.is_malloc, DeviceOp.is_free, List.foldl_append,
              foldl_scratch_step_launch, hf1, hf2, List.filter_append]

theorem scratch_released_witness :
    allocations (rocblas_trtri_trsm_template 2 1 first_gemm_fails lower_2x2).trace = 1 ∧
    releases (rocblas_trtri_trsm_template 2 1 first_gemm_fails lower_2x2).trace = 1 := by
  have h := (scratch_released 2 1 first_gemm_fails lower_2x2).2.2
  have ha : allocations (rocblas_trtri_trsm_template 2 1 first_gemm_fails lower_2x2).trace = 1 := by
    decide
  rw [if_pos ⟨ha, rfl⟩] at h
  exact ⟨ha, h⟩

/-! ## Concrete runs -/

/-- C1: on the lower triangular `[[1, 0], [1, 2]]` with `NB = 2`, `IB = 1` and
exact primitives the routine succeeds and stores `invA11 = 1`, `invA22 = 1/2`,
but `-1` in the off-diagonal quadrant where `-invA22 * A21 * invA11 = -1/2`;
row 1 of the block times column 0 of the slot is `-1` instead of `0`. -/
theorem block_inverse_off_diagonal_wrong :
    (rocblas_trtri_trsm_template 2 1 (all_succeed ℚ) lower_2x2).status
      = rocblas_status.success ∧
    (rocblas_trtri_trsm_template 2 1 (all_succeed ℚ) lower_2x2).entry 0 = some 1 ∧
    (rocblas_trtri_trsm_template 2 1 (all_succeed ℚ) lower_2x2).entry 3 = some (1 / 2) ∧
    (rocblas_trtri_trsm_template 2 1 (all_succeed ℚ) lower_2x2).entry 1 = some (-1) ∧
    -(1 / 2 : ℚ) * buffer_of [1, 1, 0, 2] 1 * 1 = -1 / 2 ∧
    (rocblas_trtri_trsm_template 2 1 (all_succeed ℚ) lower_2x2).invA.map
      (fun f => block_times_slot rocblas_fill.lower rocblas_diagonal.non_unit 2
        (buffer_of [1, 1, 0, 2]) 2 f 0 1 0) = some (-1) := by
  refine ⟨by decide, ?_, ?_, ?_, ?_, ?_⟩ <;>
  simp [rocblas_trtri_trsm_template, lower_2x2, trtri_trsm_work, all_succeed,
    reference_primitives, Outcome.entry, hipLaunchKernel, trtri_trsm_kernel, first_gemm,
    second_gemm, gemm_batched_spec, trtri_device_spec, batch_cells, square_cells,
    gemm_value, operand, Mem.read, Mem.write, individual_A, individual_invA,
    A12_A21_offset, invA11_invA22_offset, invA21_invA12_offset, tri_inv_entry, tri_entry,
    lower_inv, lower_inv_col, buffer_of, Function.update_apply, List.range_succ,
    block_times_slot, slot_entry] <;> norm_num

/-- C4, as stated, fails: a successful lower triangular call with `NB = 2`,
`IB = 1` on an output buffer pre-filled with sevens leaves the seven at row 0,
column 1 of slot 0, an entry of the opposite triangle. -/
theorem opposite_quadrant_keeps_old_content :
    (rocblas_trtri_trsm_template 2 1 (all_succeed ℚ) lower_2x2).status
      = rocblas_status.success ∧
    (rocblas_trtri_trsm_template 2 1 (all_succeed ℚ) lower_2x2).entry (0 * 2 * 2 + 1 * 2 + 0)
      = some 7 := by
  refine ⟨by decide, ?_⟩
  simp [rocblas_trtri_trsm_template, lower_2x2, trtri_trsm_work, all_succeed,
    reference_primitives, Outcome.entry, hipLaunchKernel, trtri_trsm_kernel, first_gemm,
    second_gemm, gemm_batched_spec, trtri_device_spec, batch_cells, square_cells,
    gemm_value, operand, Mem.read, Mem.write, individual_A, individual_invA,
    A12_A21_offset, invA11_invA22_offset, invA21_invA12_offset, tri_inv_entry, tri_entry,
    lower_inv, lower_inv_col, buffer_of, Function.update_apply, List.range_succ]

/-- C9: for `uplo = upper`, `NB = 2`, `IB = 1`, `n = lda = 4` the left operand
of the first batched multiply addresses elements 2 and 12 of `A`; element 2 is
row 2, column 0, below the diagonal. -/
theorem upper_first_gemm_reads_below_diagonal :
    (gemm_calls (rocblas_trtri_trsm_template 2 1 (all_succeed ℚ) upper_4x4).trace).head?.map
      GemmCall.A_reads = some [2, 12] ∧
    (2 : Int) % upper_4x4.lda = 2 ∧ (2 : Int) / upper_4x4.lda = 0 ∧
    A12_A21_offset 2 1 rocblas_fill.upper = 2 := by
  decide

/-! ## Index arithmetic -/

theorem mem_region (base ld : Int) (rows cols : Nat) (idx : Int) :
    idx ∈ region base ld rows cols ↔
      ∃ c, c < cols ∧ ∃ r, r < rows ∧ idx = base + (c : Int) * ld + (r : Int) := by
  unfold region
  constructor
  · intro h
    obtain ⟨c, hc, h⟩ := List.mem_flatMap.mp h
    obtain ⟨r, hr, h⟩ := List.mem_map.mp h
    exact ⟨c, List.mem_range.mp hc, r, List.mem_range.mp hr, h.symm⟩
  · rintro ⟨c, hc, r, hr, rfl⟩
    exact List.mem_flatMap.mpr ⟨c, List.mem_range.mpr hc,
      List.mem_map.mpr ⟨r, List.mem_range.mpr hr, rfl⟩⟩

/-- An index written as slot, column and row lies inside its slot. -/
theorem slot_index_bounds (NB s col row : Int)
    (hc0 : 0 ≤ col) (hc : col < NB) (hr0 : 0 ≤ row) (hr : row < NB) :
    s * (NB * NB) ≤ s * NB * NB + col * NB + row ∧
    s * NB * NB + col * NB + row < (s + 1) * (NB * NB) := by
  have h1 : 0 ≤ col * NB := mul_nonneg hc0 (by omega)
  have h2 : col * NB ≤ (NB - 1) * NB := mul_le_mul_of_nonneg_right (by omega) (by omega)
  have e1 : s * NB * NB = s * (NB * NB) := by ring
  have e2 : (s + 1) * (NB * NB) = s * (NB * NB) + (NB - 1) * NB + NB := by ring
  rw [e1, e2]
  constructor <;> omega

theorem tdiv_eq_of_pos (n NB : Int) (hn : 0 < n) (hNB : 0 < NB) :
    n.tdiv NB = n / NB ∧ n.tmod NB = n % NB :=
  ⟨Int.tdiv_eq_ediv (by omega) (by omega), Int.tmod_eq_emod (by omega) (by omega)⟩

/-- The full blocks are among the `ceil(n / NB)` slots, and so is the slot
after them when `n` is not a multiple of `NB`. -/
theorem blocks_le_ceil_div (n NB : Int) (hNB : 0 < NB) :
    n / NB ≤ ceil_div n NB ∧ (n % NB ≠ 0 → n / NB + 1 ≤ ceil_div n NB) := by
  have h1 := Int.ediv_add_emod n NB
  have h2 := Int.emod_nonneg n (show NB ≠ 0 by omega)
  have h3 := Int.emod_lt_of_pos n hNB
  have e : NB * (n / NB) = n / NB * NB := mul_comm _ _
  unfold ceil_div
  constructor
  · rw [Int.le_ediv_iff_mul_le hNB]; omega
  · intro h
    rw [Int.le_ediv_iff_mul_le hNB]
    have : (n / NB + 1) * NB = n / NB * NB + NB := by ring
    omega

/-- Every entry of the trace of the working part is one of its eight calls. -/
theorem trtri_trsm_work_mem_trace {F : Type} [Field F] (NB IB : Int) (P : Primitives F)
    (uplo : rocblas_fill) (diag : rocblas_diagonal) (n : Int)
    (A : Int → F) (lda : Int) (invA : Int → F) (op : DeviceOp F)
    (h : op ∈ (trtri_trsm_work NB IB P uplo diag n A lda invA).trace) :
    op = DeviceOp.rocblas_get_stream ∨
    op = DeviceOp.hipLaunchKernel (n.tdiv NB * 2) IB uplo diag (n.tdiv NB * NB) lda ∨
    (∃ i, i < (n.tdiv NB * 2).toNat ∧ trtri_trsm_kernel_op NB IB i uplo diag lda = op) ∨
    op = DeviceOp.hipMalloc (IB * IB * n.tdiv NB) ∨
    op = DeviceOp.rocblas_gemm_batched (first_gemm NB IB uplo lda (n.tdiv NB)) ∨
    op = DeviceOp.rocblas_gemm_batched (second_gemm NB IB uplo (n.tdiv NB)) ∨
    op = DeviceOp.hipFree ∨
    (n.tmod NB ≠ 0 ∧ op = DeviceOp.rocblas_trtri uplo diag (n - n.tdiv NB * NB)
      (rocblas_int_wrap (n.tdiv NB * NB * lda) + n.tdiv NB * NB) lda (n.tdiv NB * NB * NB) NB) := by
  rw [trtri_trsm_work_trace] at h
  split_ifs at h with h0 h1 h2 h3 <;>
    simp only [List.mem_append, List.mem_cons, List.mem_singleton, List.not_mem_nil,
      hipLaunchKernel_trace, List.mem_map, List.mem_range, or_false, false_or] at h <;>
    generalize (∃ i, i < (n.tdiv NB * 2).toNat ∧
      trtri_trsm_kernel_op NB IB i uplo diag lda = op) = E at h ⊢ <;>
    tauto

theorem slot_within (NB s K idx : Int) (hs : 0 ≤ s) (hsK : s + 1 ≤ K)
    (h : s * (NB * NB) ≤ idx ∧ idx < (s + 1) * (NB * NB)) :
    0 ≤ idx ∧ idx < K * NB * NB := by
  have h1 : 0 ≤ s * (NB * NB) := mul_nonneg hs (mul_self_nonneg NB)
  have h2 : (s + 1) * (NB * NB) ≤ K * (NB * NB) :=
    mul_le_mul_of_nonneg_right hsK (mul_self_nonneg NB)
  have e : K * NB * NB = K * (NB * NB) := by ring
  rw [e]
  constructor <;> omega

/-- Thread block `i` writes the diagonal quadrant `i % 2` of slot `i / 2`. -/
theorem kernel_write_decomp (NB IB : Int) (i : Nat) (idx : Int)
    (h : idx ∈ region (individual_invA NB IB i) NB IB.toNat IB.toNat) :
    ∃ c r : Int, 0 ≤ c ∧ c < IB ∧ 0 ≤ r ∧ r < IB ∧
      idx = ((i / 2 : Nat) : Int) * NB * NB + (((i % 2 : Nat) : Int) * IB + c) * NB
        + (((i % 2 : Nat) : Int) * IB + r) := by
  obtain ⟨c, hc, r, hr, rfl⟩ := (mem_region _ _ _ _ _).mp h
  refine ⟨c, r, by omega, by omega, by omega, by omega, ?_⟩
  unfold individual_invA
  rcases Nat.mod_two_eq_zero_or_one i with h2 | h2
  · simp [h2]
  · simp [h2]; ring

/-- The second batched multiply writes, for batch member `k`, the
off-diagonal quadrant of slot `k` selected by `uplo`. -/
theorem second_gemm_write_decomp {F : Type} [Field F] (NB IB : Int) (uplo : rocblas_fill)
    (blocks : Int) (idx : Int)
    (h : idx ∈ (DeviceOp.rocblas_gemm_batched (second_gemm NB IB uplo blocks :
      GemmCall F)).invA_writes) :
    ∃ k c r : Int, 0 ≤ k ∧ k < blocks ∧ 0 ≤ c ∧ c < IB ∧ 0 ≤ r ∧ r < IB ∧
      idx = k * NB * NB
        + ((if uplo = rocblas_fill.lower then 0 else IB) + c) * NB
        + ((if uplo = rocblas_fill.lower then IB else 0) + r) := by
  simp only [DeviceOp.invA_writes, second_gemm, if_true] at h
  obtain ⟨k, hk, h⟩ := List.mem_flatMap.mp h
  obtain ⟨c, hc, r, hr, rfl⟩ := (mem_region _ _ _ _ _).mp h
  have hk' := List.mem_range.mp hk
  refine ⟨k, c, r, by omega, by omega, by omega, by omega, by omega, by omega, ?_⟩
  unfold invA21_invA12_offset
  split_ifs <;> ring

/-- Every index of the output buffer a call of the run writes lies in one
slot: a slot of a full block, or the slot after them when `n` is not a multiple
of `NB`. -/
theorem invA_writes_slot {F : Type} [Field F] (NB IB : Int) (P : Primitives F)
    (a : Args F) (hIB : 0 < IB) (hNB : NB = 2 * IB) (hn : 0 < a.n)
    (op : DeviceOp F) (hop : op ∈ (rocblas_trtri_trsm_template NB IB P a).trace)
    (idx : Int) (hidx : idx ∈ op.invA_writes) :
    ∃ s : Int, 0 ≤ s ∧ (s < a.n / NB ∨ (s = a.n / NB ∧ a.n % NB ≠ 0)) ∧
      s * (NB * NB) ≤ idx ∧ idx < (s + 1) * (NB * NB) := by
  rcases rocblas_trtri_trsm_template_cases NB IB P a with h | ⟨A, invA, -, -, -, -, -, -, h⟩
  · rw [h] at hop; simp at hop
  rw [h] at hop
  have hNBpos : 0 < NB := by omega
  obtain ⟨hd, hm⟩ := tdiv_eq_of_pos a.n NB hn hNBpos
  have hq0 : 0 ≤ a.n / NB := Int.ediv_nonneg (by omega) (by omega)
  rcases trtri_trsm_work_mem_trace _ _ _ _ _ _ _ _ _ op hop with
    rfl | rfl | ⟨i, hi, rfl⟩ | rfl | rfl | rfl | rfl | ⟨h3, rfl⟩
  · simp [DeviceOp.invA_writes] at hidx
  · simp [DeviceOp.invA_writes] at hidx
  · simp only [trtri_trsm_kernel_op, DeviceOp.invA_writes] at hidx
    obtain ⟨c, r, hc0, hc, hr0, hr, rfl⟩ := kernel_write_decomp NB IB i idx hidx
    rw [hd] at hi
    refine ⟨((i / 2 : Nat) : Int), by omega, Or.inl (by omega), ?_⟩
    apply slot_index_bounds
    · rcases Nat.mod_two_eq_zero_or_one i with h2 | h2 <;> simp [h2] <;> omega
    · rcases Nat.mod_two_eq_zero_or_one i with h2 | h2 <;> simp [h2] <;> omega
    · rcases Nat.mod_two_eq_zero_or_one i with h2 | h2 <;> simp [h2] <;> omega
    · rcases Nat.mod_two_eq_zero_or_one i with h2 | h2 <;> simp [h2] <;> omega
  · simp [DeviceOp.invA_writes] at hidx
  · simp [DeviceOp.invA_writes, first_gemm] at hidx
  · obtain ⟨k, c, r, hk0, hk, hc0, hc, hr0, hr, rfl⟩ :=
      second_gemm_write_decomp NB IB a.uplo _ idx hidx
    rw [hd] at hk
    refine ⟨k, hk0, Or.inl hk, ?_⟩
    apply slot_index_bounds <;> split_ifs <;> omega
  · simp [DeviceOp.invA_writes] at hidx
  · simp only [DeviceOp.invA_writes] at hidx
    obtain ⟨c, hc, r, hr, rfl⟩ := (mem_region _ _ _ _ _).mp hidx
    rw [hd] at hc hr ⊢
    rw [hm] at h3
    have h1 := Int.ediv_add_emod a.n NB
    have h2 := Int.emod_lt_of_pos a.n hNBpos
    have e : NB * (a.n / NB) = a.n / NB * NB := mul_comm _ _
    refine ⟨a.n / NB, hq0, Or.inr ⟨rfl, h3⟩, ?_⟩
    apply slot_index_bounds <;> omega

/-- C10: with `NB = 2 * IB`, `IB > 0` and `n > 0`, every index of the output
buffer written by a thread block of the kernel, by the second batched multiply
or by the remainder inversion is non-negative and below
`ceil(n / NB) * NB * NB`. -/
theorem output_within_buffer {F : Type} [Field F] (NB IB : Int) (P : Primitives F)
    (a : Args F) (hIB : 0 < IB) (hNB : NB = 2 * IB) (hn : 0 < a.n)
    (op : DeviceOp F) (hop : op ∈ (rocblas_trtri_trsm_template NB IB P a).trace)
    (idx : Int) (hidx : idx ∈ op.invA_writes) :
    0 ≤ idx ∧ idx < ceil_div a.n NB * NB * NB := by
  obtain ⟨s, hs0, hs, hlo, hhi⟩ := invA_writes_slot NB IB P a hIB hNB hn op hop idx hidx
  obtain ⟨hc1, hc2⟩ := blocks_le_ceil_div a.n NB (by omega)
  apply slot_within NB s _ _ hs0 _ ⟨hlo, hhi⟩
  rcases hs with hs | ⟨hs, hrem⟩
  · omega
  · rw [hs]; exact hc2 hrem

theorem output_within_buffer_witness :
    (0 : Int) ≤ 4 ∧ (4 : Int) < ceil_div lower_3x3.n 2 * 2 * 2 :=
  output_within_buffer 2 1 (all_succeed ℚ) lower_3x3 (by decide) (by decide) (by decide)
    (DeviceOp.rocblas_trtri rocblas_fill.lower rocblas_diagonal.non_unit 1 8 3 4 2)
    (by decide) 4 (by decide)

/-! ## Slots, quadrants and frames -/

theorem div_mod_unique (N a r a' r' : Int) (hr0 : 0 ≤ r) (hr : r < N) (hr0' : 0 ≤ r')
    (hr' : r' < N) (h : a * N + r = a' * N + r') : a = a' ∧ r = r' := by
  have hN : 0 < N := by omega
  have h1 : (a * N + r) % N = r := by
    rw [add_comm, Int.add_mul_emod_self]; exact Int.emod_eq_of_lt hr0 hr
  have h2 : (a' * N + r') % N = r' := by
    rw [add_comm, Int.add_mul_emod_self]; exact Int.emod_eq_of_lt hr0' hr'
  have hrr : r = r' := by rw [← h1, ← h2, h]
  subst hrr
  have h3 : a * N = a' * N := by omega
  exact ⟨Int.eq_of_mul_eq_mul_right (by omega) h3, rfl⟩

/-- Slot, column and row of an index of the output buffer are unique. -/
theorem slot_decomp_unique (NB k c r k' c' r' : Int)
    (hc0 : 0 ≤ c) (hc : c < NB) (hr0 : 0 ≤ r) (hr : r < NB)
    (hc0' : 0 ≤ c') (hc' : c' < NB) (hr0' : 0 ≤ r') (hr' : r' < NB)
    (h : k * NB * NB + c * NB + r = k' * NB * NB + c' * NB + r') :
    k = k' ∧ c = c' ∧ r = r' := by
  have e1 : k * NB * NB + c * NB + r = (k * NB + c) * NB + r := by ring
  have e2 : k' * NB * NB + c' * NB + r' = (k' * NB + c') * NB + r' := by ring
  rw [e1, e2] at h
  obtain ⟨h1, h2⟩ := div_mod_unique NB _ r _ r' hr0 hr hr0' hr' h
  obtain ⟨h3, h4⟩ := div_mod_unique NB k c k' c' hc0 hc hc0' hc' h1
  exact ⟨h3, h4, h2⟩

/-- The regions written by two different thread blocks are disjoint. -/
theorem kernel_writes_disjoint (NB IB : Int) (i j : Nat) (idx : Int) (hIB : 0 < IB)
    (hNB : NB = 2 * IB) (hij : i ≠ j)
    (hi : idx ∈ region (individual_invA NB IB i) NB IB.toNat IB.toNat) :
    idx ∉ region (individual_invA NB IB j) NB IB.toNat IB.toNat := by
  intro hj
  obtain ⟨c, r, hc0, hc, hr0, hr, e⟩ := kernel_write_decomp NB IB i idx hi
  obtain ⟨c', r', hc0', hc', hr0', hr', e'⟩ := kernel_write_decomp NB IB j idx hj
  rw [e] at e'
  have hi2 : ((i % 2 : Nat) : Int) * IB = 0 ∨ ((i % 2 : Nat) : Int) * IB = IB := by
    rcases Nat.mod_two_eq_zero_or_one i with h | h <;> simp [h]
  have hj2 : ((j % 2 : Nat) : Int) * IB = 0 ∨ ((j % 2 : Nat) : Int) * IB = IB := by
    rcases Nat.mod_two_eq_zero_or_one j with h | h <;> simp [h]
  obtain ⟨h1, h2, h3⟩ := slot_decomp_unique NB _ _ _ _ _ _
    (by omega) (by omega) (by omega) (by omega) (by omega) (by omega) (by omega) (by omega) e'
  have h4 : i % 2 = j % 2 := by
    rcases Nat.mod_two_eq_zero_or_one i with hi' | hi' <;>
    rcases Nat.mod_two_eq_zero_or_one j with hj' | hj' <;>
    simp [hi', hj'] at h2 hi2 hj2 ⊢ <;> omega
  omega

/-- The launch leaves alone whatever no thread block writes. -/
theorem foldl_kernel_frame {F : Type} (NB IB : Int) (P : Primitives F)
    (hP : trtri_device_frame P) (uplo : rocblas_fill) (diag : rocblas_diagonal) (n : Int)
    (A : Int → F) (lda : Int) (invA : Int → F) (idx : Int) (G : Nat)
    (h : ∀ i, i < G → idx ∉ region (individual_invA NB IB i) NB IB.toNat IB.toNat) :
    (List.range G).foldl (fun inv i => trtri_trsm_kernel NB IB P i uplo diag n A lda inv)
      invA idx = invA idx := by
  induction G with
  | zero => rfl
  | succ G ih =>
    rw [List.range_succ, List.foldl_append]
    simp only [List.foldl_cons, List.foldl_nil]
    unfold trtri_trsm_kernel
    rw [hP _ _ _ _ _ _ _ _ _ _ (h G (Nat.lt_succ_self G))]
    exact ih (fun i hi => h i (Nat.lt_succ_of_lt hi))

/-- After the launch, what thread block `j` wrote is still there. -/
theorem foldl_kernel_value {F : Type} (NB IB : Int) (P : Primitives F)
    (hP : trtri_device_frame P) (hIB : 0 < IB) (hNB : NB = 2 * IB)
    (uplo : rocblas_fill) (diag : rocblas_diagonal) (n : Int)
    (A : Int → F) (lda : Int) (invA : Int → F) (idx : Int) (G j : Nat) (hj : j < G)
    (h : idx ∈ region (individual_invA NB IB j) NB IB.toNat IB.toNat) :
    ∃ inv, (List.range G).foldl
        (fun inv i => trtri_trsm_kernel NB IB P i uplo diag n A lda inv) invA idx =
      trtri_trsm_kernel NB IB P j uplo diag n A lda inv idx := by
  induction G with
  | zero => omega
  | succ G ih =>
    rw [List.range_succ, List.foldl_append]
    simp only [List.foldl_cons, List.foldl_nil]
    by_cases hjG : j = G
    · subst hjG
      exact ⟨_, rfl⟩
    · obtain ⟨inv, hinv⟩ := ih (by omega)
      refine ⟨inv, ?_⟩
      rw [← hinv]
      unfold trtri_trsm_kernel
      exact hP _ _ _ _ _ _ _ _ _ _ (kernel_writes_disjoint NB IB j G idx hIB hNB hjG h)

/-- Off the diagonal quadrants of the slots no thread block writes. -/
theorem off_diagonal_not_kernel_write (NB IB : Int) (i : Nat) (k r c : Int)
    (hNB : NB = 2 * IB) (hr0 : 0 ≤ r) (hr : r < NB) (hc0 : 0 ≤ c) (hc : c < NB)
    (hoff : (r < IB ∧ IB ≤ c) ∨ (c < IB ∧ IB ≤ r)) :
    k * NB * NB + c * NB + r ∉ region (individual_invA NB IB i) NB IB.toNat IB.toNat := by
  intro h
  obtain ⟨c', r', hc0', hc', hr0', hr', e⟩ := kernel_write_decomp NB IB i _ h
  have hi2 : ((i % 2 : Nat) : Int) * IB = 0 ∨ ((i % 2 : Nat) : Int) * IB = IB := by
    rcases Nat.mod_two_eq_zero_or_one i with h | h <;> simp [h]
  obtain ⟨h1, h2, h3⟩ := slot_decomp_unique NB _ _ _ _ _ _
    hc0 hc hr0 hr (by omega) (by omega) (by omega) (by omega) e
  omega

/-- The opposite triangle of a slot is not written by the second batched
multiply. -/
theorem opposite_not_second_gemm_write {F : Type} [Field F] (NB IB : Int)
    (uplo : rocblas_fill) (blocks k r c : Int) (hNB : NB = 2 * IB)
    (hu : uplo = rocblas_fill.lower ∨ uplo = rocblas_fill.upper)
    (hr0 : 0 ≤ r) (hr : r < NB) (hc0 : 0 ≤ c) (hc : c < NB)
    (hopp : opposite_triangle uplo r c) :
    k * NB * NB + c * NB + r ∉
      (DeviceOp.rocblas_gemm_batched (second_gemm NB IB uplo blocks : GemmCall F)).invA_writes := by
  intro h
  obtain ⟨k', c', r', hk0, hk, hc0', hc', hr0', hr', e⟩ :=
    second_gemm_write_decomp NB IB uplo blocks _ h
  unfold opposite_triangle at hopp
  rcases hu with hu | hu
  · subst hu
    simp only [if_true] at e
    obtain ⟨h1, h2, h3⟩ := slot_decomp_unique NB _ _ _ _ _ _
      hc0 hc hr0 hr (by omega) (by omega) (by omega) (by omega) e
    simp at hopp
    omega
  · subst hu
    simp only [if_false, reduceCtorEq] at e
    obtain ⟨h1, h2, h3⟩ := slot_decomp_unique NB _ _ _ _ _ _
      hc0 hc hr0 hr (by omega) (by omega) (by omega) (by omega) e
    simp at hopp
    omega

/-- The output buffer after a run over full blocks only in which the stream
query, the allocation and the release succeed. -/
theorem trtri_trsm_work_invA_of_full_blocks {F : Type} [Field F] (NB IB : Int)
    (P : Primitives F) (uplo : rocblas_fill) (diag : rocblas_diagonal) (n : Int)
    (A : Int → F) (lda : Int) (invA : Int → F)
    (hs : P.rocblas_get_stream = rocblas_status.success)
    (hm : P.hipMalloc = hipError_t.hipSuccess) (hf : P.hipFree = hipError_t.hipSuccess)
    (h3 : n.tmod NB = 0) :
    (trtri_trsm_work NB IB P uplo diag n A lda invA).invA =
      some (P.rocblas_gemm_batched 1 (second_gemm NB IB uplo (n.tdiv NB))
        (P.rocblas_gemm_batched 0 (first_gemm NB IB uplo lda (n.tdiv NB))
          ⟨A, hipLaunchKernel NB IB P (n.tdiv NB * 2) uplo diag (n.tdiv NB * NB) A lda invA,
            P.scratch⟩).2).2.invA := by
  unfold trtri_trsm_work
  simp only [hs, hm, hf, h3, ne_eq, not_true_eq_false, if_false]

/-- C4 (amended): after a call on full blocks only in which every step
succeeds, every entry of the opposite triangle that lies in one of the two
diagonal quadrants of a slot is zero, and every entry of the opposite
off-diagonal quadrant holds what the output buffer held before the call. -/
theorem opposite_triangle_after_call {F : Type} [Field F] (NB IB : Int) (P : Primitives F)
    (a : Args F) (A invA : Int → F) (hIB : 0 < IB) (hNB : NB = 2 * IB)
    (hh : a.handle ≠ none)
    (hu : a.uplo = rocblas_fill.lower ∨ a.uplo = rocblas_fill.upper)
    (hA : a.A = some A) (hl : a.n ≤ a.lda) (hI : a.invA = some invA) (hn : 0 < a.n)
    (hdiv : a.n % NB = 0)
    (hs : P.rocblas_get_stream = rocblas_status.success)
    (hm : P.hipMalloc = hipError_t.hipSuccess) (hf : P.hipFree = hipError_t.hipSuccess)
    (hframe : trtri_device_frame P) (hzero : trtri_device_zeroes_opposite P)
    (hgemm : gemm_batched_frame P) :
    ∃ out, (rocblas_trtri_trsm_template NB IB P a).invA = some out ∧
      ∀ k r c : Int, 0 ≤ k → k < a.n / NB → 0 ≤ r → r < NB → 0 ≤ c → c < NB →
        opposite_triangle a.uplo r c →
        (((r < IB ∧ c < IB) ∨ (IB ≤ r ∧ IB ≤ c)) → out (k * NB * NB + c * NB + r) = 0) ∧
        (((r < IB ∧ IB ≤ c) ∨ (c < IB ∧ IB ≤ r)) →
          out (k * NB * NB + c * NB + r) = invA (k * NB * NB + c * NB + r)) := by
  have hNBpos : 0 < NB := by omega
  obtain ⟨hd, hmod⟩ := tdiv_eq_of_pos a.n NB hn hNBpos
  rw [rocblas_trtri_trsm_template_of_valid NB IB P a A invA hh hu hA hl hI hn]
  refine ⟨_, trtri_trsm_work_invA_of_full_blocks NB IB P a.uplo a.diag a.n A a.lda invA hs hm hf
    (by rw [hmod]; exact hdiv), ?_⟩
  intro k r c hk0 hk hr0 hr hc0 hc hopp
  rw [hgemm 1 _ _ _ (opposite_not_second_gemm_write NB IB a.uplo _ k r c hNB hu hr0 hr hc0 hc hopp),
    hgemm 0 _ _ _ (by simp [DeviceOp.invA_writes, first_gemm])]
  simp only [hipLaunchKernel, hd]
  constructor
  · intro hsame
    obtain ⟨kn, rfl⟩ := Int.eq_ofNat_of_zero_le hk0
    have hq : ∃ (j : Nat) (r0 c0 : Nat), j < (a.n / NB * 2).toNat ∧ r0 < IB.toNat ∧
        c0 < IB.toNat ∧ ((r0 : Int) < c0 ↔ r < c) ∧ ((c0 : Int) < r0 ↔ c < r) ∧
        (kn : Int) * NB * NB + c * NB + r =
          individual_invA NB IB j + (c0 : Int) * NB + (r0 : Int) := by
      rcases hsame with ⟨h1, h2⟩ | ⟨h1, h2⟩
      · refine ⟨2 * kn, r.toNat, c.toNat, by omega, by omega, by omega, by omega, by omega, ?_⟩
        unfold individual_invA
        have e1 : 2 * kn / 2 = kn := by omega
        have e2 : ¬ (2 * kn % 2 = 1) := by omega
        simp only [e1, e2, if_false]
        have e3 : ((r.toNat : Nat) : Int) = r := Int.toNat_of_nonneg hr0
        have e4 : ((c.toNat : Nat) : Int) = c := Int.toNat_of_nonneg hc0
        rw [e3, e4]
      · refine ⟨2 * kn + 1, (r - IB).toNat, (c - IB).toNat, by omega, by omega, by omega,
          by omega, by omega, ?_⟩
        unfold individual_invA
        have e1 : (2 * kn + 1) / 2 = kn := by omega
        have e2 : (2 * kn + 1) % 2 = 1 := by omega
        simp only [e1, e2, if_true]
        have e3 : (((r - IB).toNat : Nat) : Int) = r - IB := Int.toNat_of_nonneg (by omega)
        have e4 : (((c - IB).toNat : Nat) : Int) = c - IB := Int.toNat_of_nonneg (by omega)
        rw [e3, e4]
        ring
    obtain ⟨j, r0, c0, hj, hr0', hc0', hlt, hgt, e⟩ := hq
    have hmem : (kn : Int) * NB * NB + c * NB + r ∈
        region (individual_invA NB IB j) NB IB.toNat IB.toNat :=
      (mem_region _ _ _ _ _).mpr ⟨c0, hc0', r0, hr0', e⟩
    obtain ⟨inv, hinv⟩ := foldl_kernel_value NB IB P hframe hIB hNB a.uplo a.diag
      (a.n / NB * NB) A a.lda invA _ _ j hj hmem
    rw [hinv, e]
    unfold trtri_trsm_kernel
    apply hzero _ _ _ _ _ _ _ _ _ r0 c0 (by omega) hr0' hc0'
    unfold opposite_triangle at hopp ⊢
    rcases hopp with ⟨h1, h2⟩ | ⟨h1, h2⟩
    · exact Or.inl ⟨h1, hlt.mpr h2⟩
    · exact Or.inr ⟨h1, hgt.mpr h2⟩
  · intro hdiff
    exact foldl_kernel_frame NB IB P hframe a.uplo a.diag _ A a.lda invA _ _
      (fun i _ => off_diagonal_not_kernel_write NB IB i k r c hNB hr0 hr hc0 hc hdiff)

/-! ## The reference primitives meet the contracts -/

theorem foldl_update_of_not_mem {α F : Type} (ix : α → Int) (val : α → F) (l : List α)
    (f : Int → F) (idx : Int) (h : ∀ x, x ∈ l → ix x ≠ idx) :
    l.foldl (fun acc x => Function.update acc (ix x) (val x)) f idx = f idx := by
  induction l generalizing f with
  | nil => rfl
  | cons y l ih =>
    rw [List.foldl_cons, ih _ (fun x hx => h x (List.mem_cons_of_mem _ hx))]
    exact Function.update_noteq (Ne.symm (h y (List.mem_cons_self _ _))) _ _

theorem foldl_update_of_mem {α F : Type} (ix : α → Int) (val : α → F) (l : List α)
    (f : Int → F) (x : α) (hx : x ∈ l) (h : ∀ y, y ∈ l → ix y = ix x → val y = val x) :
    l.foldl (fun acc x => Function.update acc (ix x) (val x)) f (ix x) = val x := by
  induction l generalizing f x with
  | nil => cases hx
  | cons y l ih =>
    rw [List.foldl_cons]
    by_cases hmem : ∃ z, z ∈ l ∧ ix z = ix x
    · obtain ⟨z, hz, hzx⟩ := hmem
      have hv : val z = val x := h z (List.mem_cons_of_mem _ hz) hzx
      rw [← hzx, ← hv]
      exact ih _ z hz (fun w hw hwz => by
        rw [hv]; exact h w (List.mem_cons_of_mem _ hw) (hwz.trans hzx))
    · have hno : ∀ z, z ∈ l → ix z ≠ ix x := fun z hz hzx => hmem ⟨z, hz, hzx⟩
      rw [foldl_update_of_not_mem ix val l _ _ hno]
      rcases List.mem_cons.mp hx with rfl | hx'
      · exact Function.update_same _ _ _
      · exact absurd rfl (hno x hx')

theorem mem_square_cells (n : Nat) (cell : Nat × Nat) :
    cell ∈ square_cells n ↔ cell.1 < n ∧ cell.2 < n := by
  unfold square_cells
  constructor
  · intro h
    obtain ⟨c, hc, h⟩ := List.mem_flatMap.mp h
    obtain ⟨r, hr, h⟩ := List.mem_map.mp h
    subst h
    exact ⟨List.mem_range.mp hr, List.mem_range.mp hc⟩
  · rintro ⟨hr, hc⟩
    exact List.mem_flatMap.mpr ⟨cell.2, List.mem_range.mpr hc,
      List.mem_map.mpr ⟨cell.1, List.mem_range.mpr hr, rfl⟩⟩

theorem mem_batch_cells (batch rows cols : Nat) (cell : Nat × Nat × Nat) :
    cell ∈ batch_cells batch rows cols ↔
      cell.1 < batch ∧ cell.2.1 < rows ∧ cell.2.2 < cols := by
  unfold batch_cells
  constructor
  · intro h
    obtain ⟨i, hi, h⟩ := List.mem_flatMap.mp h
    obtain ⟨c, hc, h⟩ := List.mem_flatMap.mp h
    obtain ⟨r, hr, h⟩ := List.mem_map.mp h
    subst h
    exact ⟨List.mem_range.mp hi, List.mem_range.mp hr, List.mem_range.mp hc⟩
  · rintro ⟨hi, hr, hc⟩
    exact List.mem_flatMap.mpr ⟨cell.1, List.mem_range.mpr hi,
      List.mem_flatMap.mpr ⟨cell.2.2, List.mem_range.mpr hc,
        List.mem_map.mpr ⟨cell.2.1, List.mem_range.mpr hr, rfl⟩⟩⟩

theorem length_lower_inv_col {F : Type} [Field F] (T : Nat → Nat → F) (j i : Nat) :
    (lower_inv_col T j i).length = i := by
  induction i with
  | zero => rfl
  | succ i ih => simp [lower_inv_col, ih]

/-- Above the diagonal the inverse of a lower triangular matrix is zero. -/
theorem lower_inv_of_lt {F : Type} [Field F] (T : Nat → Nat → F) (i j : Nat) (h : i < j) :
    lower_inv T i j = 0 := by
  unfold lower_inv
  rw [lower_inv_col]
  simp only [h, if_true]
  rw [List.getD_append_right _ _ _ _ (by rw [length_lower_inv_col])]
  simp [length_lower_inv_col]

theorem tri_inv_entry_opposite {F : Type} [Field F] (uplo : rocblas_fill)
    (diag : rocblas_diagonal) (A : Int → F) (off lda : Int) (r c : Nat)
    (h : opposite_triangle uplo r c) : tri_inv_entry uplo diag A off lda r c = 0 := by
  unfold opposite_triangle at h
  unfold tri_inv_entry
  rcases h with ⟨h1, h2⟩ | ⟨h1, h2⟩
  · rw [if_pos h1]; exact lower_inv_of_lt _ _ _ (by omega)
  · rw [if_neg (by rw [h1]; decide)]; exact lower_inv_of_lt _ _ _ (by omega)

theorem reference_trtri_device_frame {F : Type} [Field F] (stream : rocblas_status)
    (malloc free : hipError_t) (gemm_status : Nat → rocblas_status)
    (trtri_status : rocblas_status) :
    trtri_device_frame (reference_primitives F stream malloc free gemm_status trtri_status) := by
  intro uplo diag n A Aoff lda invA invAoff ldinvA idx hidx
  show trtri_device_spec uplo diag n A Aoff lda invA invAoff ldinvA idx = invA idx
  unfold trtri_device_spec
  apply foldl_update_of_not_mem (fun cell : Nat × Nat =>
    invAoff + (cell.2 : Int) * ldinvA + (cell.1 : Int))
  intro cell hcell heq
  obtain ⟨h1, h2⟩ := (mem_square_cells _ _).mp hcell
  exact hidx ((mem_region _ _ _ _ _).mpr ⟨cell.2, h2, cell.1, h1, heq.symm⟩)

theorem reference_trtri_device_zeroes_opposite {F : Type} [Field F] (stream : rocblas_status)
    (malloc free : hipError_t) (gemm_status : Nat → rocblas_status)
    (trtri_status : rocblas_status) :
    trtri_device_zeroes_opposite
      (reference_primitives F stream malloc free gemm_status trtri_status) := by
  intro uplo diag n A Aoff lda invA invAoff ldinvA r c hld hr hc hopp
  show trtri_device_spec uplo diag n A Aoff lda invA invAoff ldinvA _ = 0
  unfold trtri_device_spec
  have key := foldl_update_of_mem
    (fun cell : Nat × Nat => invAoff + (cell.2 : Int) * ldinvA + (cell.1 : Int))
    (fun cell : Nat × Nat => tri_inv_entry uplo diag A Aoff lda cell.1 cell.2)
    (square_cells n.toNat) invA (r, c) ((mem_square_cells _ _).mpr ⟨hr, hc⟩)
    (by
      intro y hy heq
      obtain ⟨h1, h2⟩ := (mem_square_cells _ _).mp hy
      simp only at heq
      obtain ⟨e1, e2⟩ := div_mod_unique ldinvA (y.2 : Int) (y.1 : Int) (c : Int) (r : Int)
        (by omega) (by omega) (by omega) (by omega) (by omega)
      have e1' : y.2 = c := by omega
      have e2' : y.1 = r := by omega
      simp only [e1', e2'])
  simp only at key
  rw [key]
  exact tri_inv_entry_opposite uplo diag A Aoff lda r c hopp

theorem foldl_write_invA {α F : Type} (p : DevPtr) (ix : α → Int) (val : α → F)
    (l : List α) (m : Mem F) (idx : Int)
    (h : p.buf = Buffer.invA → ∀ x, x ∈ l → p.off + ix x ≠ idx) :
    (l.foldl (fun acc x => acc.write p (ix x) (val x)) m).invA idx = m.invA idx := by
  induction l generalizing m with
  | nil => rfl
  | cons y l ih =>
    rw [List.foldl_cons, ih _ (fun hb x hx => h hb x (List.mem_cons_of_mem _ hx))]
    unfold Mem.write
    cases hb : p.buf with
    | A => rfl
    | C => rfl
    | invA =>
      exact Function.update_noteq (Ne.symm (h hb y (List.mem_cons_self _ _))) _ _

theorem reference_gemm_batched_frame {F : Type} [Field F] (stream : rocblas_status)
    (malloc free : hipError_t) (gemm_status : Nat → rocblas_status)
    (trtri_status : rocblas_status) :
    gemm_batched_frame (reference_primitives F stream malloc free gemm_status trtri_status) := by
  intro i g m idx hidx
  show (gemm_batched_spec g m).invA idx = m.invA idx
  unfold gemm_batched_spec
  apply foldl_write_invA g.C (fun cell : Nat × Nat × Nat =>
    (cell.1 : Int) * g.strideC + (cell.2.2 : Int) * g.ldc + (cell.2.1 : Int))
  intro hb cell hcell heq
  obtain ⟨h1, h2, h3⟩ := (mem_batch_cells _ _ _ _).mp hcell
  apply hidx
  simp only [DeviceOp.invA_writes, hb, if_true]
  exact List.mem_flatMap.mpr ⟨cell.1, List.mem_range.mpr h1,
    (mem_region _ _ _ _ _).mpr ⟨cell.2.2, h3, cell.2.1, h2, by rw [← heq]; ring⟩⟩

theorem opposite_triangle_after_call_witness :
    (rocblas_trtri_trsm_template 4 2 (all_succeed ℚ) lower_4x4).entry 4 = some 0 ∧
    (rocblas_trtri_trsm_template 4 2 (all_succeed ℚ) lower_4x4).entry 8 = some 7 := by
  obtain ⟨out, h1, h2⟩ := opposite_triangle_after_call 4 2 (all_succeed ℚ) lower_4x4
    (buffer_of [2, 1, 1, 1, 0, 3, 1, 1, 0, 0, 4, 1, 0, 0, 0, 5]) (fun _ => 7)
    (by decide) (by decide) (by decide) (by decide) rfl (by decide) rfl (by decide) (by decide)
    rfl rfl rfl (reference_trtri_device_frame _ _ _ _ _)
    (reference_trtri_device_zeroes_opposite _ _ _ _ _) (reference_gemm_batched_frame _ _ _ _ _)
  have e1 := (h2 0 0 1 (by decide) (by decide) (by decide) (by decide) (by decide) (by decide)
    (Or.inl ⟨rfl, by decide⟩)).1 (Or.inl ⟨by decide, by decide⟩)
  have e2 := (h2 0 0 2 (by decide) (by decide) (by decide) (by decide) (by decide) (by decide)
    (Or.inl ⟨rfl, by decide⟩)).2 (Or.inl ⟨by decide, by decide⟩)
  simp only [Outcome.entry, h1, Option.map_some']
  norm_num at e1 e2
  exact ⟨by rw [e1], by rw [e2]⟩

/-! ## The remainder -/

/-- The remainder inversion is issued at most once in any call. -/
theorem remainder_at_most_once {F : Type} [Field F] (NB IB : Int) (P : Primitives F)
    (a : Args F) :
    ((rocblas_trtri_trsm_template NB IB P a).trace.filter DeviceOp.is_remainder).length ≤ 1 := by
  rcases rocblas_trtri_trsm_template_cases NB IB P a with h | ⟨A, invA, -, -, -, -, -, -, h⟩
  · rw [h]; simp
  · rw [h, trtri_trsm_work_trace]
    have hf := fun g => filter_launch (F := F) NB IB g a.uplo a.diag (a.n.tdiv NB * NB) a.lda
      DeviceOp.is_remainder (fun _ _ _ _ _ _ => rfl) (fun _ _ _ _ _ _ _ _ => rfl)
    split_ifs <;> simp [List.filter_append, hf, DeviceOp.is_remainder]

/-- A `rocblas_int` expression whose mathematical value fits in 32 bits has
that value. -/
theorem rocblas_int_wrap_of_fits (x : Int) (h0 : -2147483648 ≤ x) (h : x < 2147483648) :
    rocblas_int_wrap x = x := by
  unfold rocblas_int_wrap
  omega

/-- C5, as stated, fails twice: with `n = 5`, `NB = 4` (so `n % NB ≠ 0`) a
call in which `hipFree` reports failure returns without the remainder
inversion; and with `lda = 2^29` the remainder inversion is given the source
offset `-2147483644`, where `blocks*NB*lda + blocks*NB = 2147483652`. -/
theorem remainder_skipped_or_offset_wrapped :
    (5 : Int).tmod 4 ≠ 0 ∧
    (rocblas_trtri_trsm_template 4 2 release_fails lower_5x5).trace.filter
      DeviceOp.is_remainder = [] ∧
    (rocblas_trtri_trsm_template 4 2 (all_succeed ℚ) wide_5x5).trace.filter
        DeviceOp.is_remainder =
      [DeviceOp.rocblas_trtri rocblas_fill.lower rocblas_diagonal.non_unit 1
        (-2147483644) 536870912 16 4] ∧
    (5 / 4 * 4 * wide_5x5.lda + 5 / 4 * 4 : Int) = 2147483652 := by
  decide

/-- C5 (amended): in a call that passes validation with `n > 0`, the remainder
inversion is issued exactly when the stream query, the scratch allocation and
the scratch release succeed and `n % NB ≠ 0`, and then once, with size
`r = n - blocks*NB = n mod NB` (`0 < r < NB`), source offset
`wrap(blocks*NB*lda) + blocks*NB`, which is `blocks*NB*lda + blocks*NB`
whenever `blocks*NB*lda < 2^31`, destination offset `blocks*NB*NB` and
destination leading dimension `NB`, where `blocks = n / NB`; when `n` is a
multiple of `NB` no call writes at or beyond slot `n / NB`. -/
theorem remainder_handler {F : Type} [Field F] (NB IB : Int) (P : Primitives F)
    (a : Args F) (A invA : Int → F)
    (hh : a.handle ≠ none)
    (hu : a.uplo = rocblas_fill.lower ∨ a.uplo = rocblas_fill.upper)
    (hA : a.A = some A) (hl : a.n ≤ a.lda) (hI : a.invA = some invA) (hn : 0 < a.n)
    (hIB : 0 < IB) (hNB : NB = 2 * IB) :
    a.n.tdiv NB = a.n / NB ∧ a.n.tmod NB = a.n % NB ∧
    (rocblas_trtri_trsm_template NB IB P a).trace.filter DeviceOp.is_remainder =
      (if P.rocblas_get_stream = rocblas_status.success ∧
          P.hipMalloc = hipError_t.hipSuccess ∧ P.hipFree = hipError_t.hipSuccess ∧
          a.n % NB ≠ 0 then
        [DeviceOp.rocblas_trtri a.uplo a.diag (a.n - a.n / NB * NB)
          (rocblas_int_wrap (a.n / NB * NB * a.lda) + a.n / NB * NB) a.lda
          (a.n / NB * NB * NB) NB]
      else []) ∧
    (a.n / NB * NB * a.lda < 2147483648 →
      rocblas_int_wrap (a.n / NB * NB * a.lda) + a.n / NB * NB =
        a.n / NB * NB * a.lda + a.n / NB * NB) ∧
    (a.n % NB ≠ 0 → 0 < a.n - a.n / NB * NB ∧ a.n - a.n / NB * NB < NB ∧
      a.n - a.n / NB * NB = a.n % NB) ∧
    (a.n % NB = 0 → ∀ op ∈ (rocblas_trtri_trsm_template NB IB P a).trace,
      ∀ idx ∈ op.invA_writes, idx < a.n / NB * NB * NB) := by
  have hNBpos : 0 < NB := by omega
  obtain ⟨hd, hmod⟩ := tdiv_eq_of_pos a.n NB hn hNBpos
  have h1 := Int.ediv_add_emod a.n NB
  have h2 := Int.emod_nonneg a.n (show NB ≠ 0 by omega)
  have h3 := Int.emod_lt_of_pos a.n hNBpos
  have e : NB * (a.n / NB) = a.n / NB * NB := mul_comm _ _
  refine ⟨hd, hmod, ?_, ?_, ?_, ?_⟩
  · rw [rocblas_trtri_trsm_template_of_valid NB IB P a A invA hh hu hA hl hI hn,
      trtri_trsm_work_trace, hd, hmod]
    have hfl := fun g n' => filter_launch (F := F) NB IB g a.uplo a.diag n' a.lda
      DeviceOp.is_remainder (fun _ _ _ _ _ _ => rfl) (fun _ _ _ _ _ _ _ _ => rfl)
    by_cases hs : P.rocblas_get_stream = rocblas_status.success
    · by_cases hm : P.hipMalloc = hipError_t.hipSuccess
      · by_cases hf : P.hipFree = hipError_t.hipSuccess
        · by_cases h0 : a.n % NB ≠ 0
          · simp [hs, hm, hf, h0, List.filter_append, hfl, DeviceOp.is_remainder]
          · simp [hs, hm, hf, h0, List.filter_append, hfl, DeviceOp.is_remainder]
        · simp [hs, hm, hf, List.filter_append, hfl, DeviceOp.is_remainder]
      · simp [hs, hm, List.filter_append, hfl, DeviceOp.is_remainder]
    · simp [hs, DeviceOp.is_remainder]
  · intro hfit
    have hq0 : 0 ≤ a.n / NB * NB :=
      mul_nonneg (Int.ediv_nonneg (by omega) (by omega)) (by omega)
    have hnn : 0 ≤ a.n / NB * NB * a.lda := mul_nonneg hq0 (by omega)
    rw [rocblas_int_wrap_of_fits _ (by omega) hfit]
  · intro h0
    refine ⟨by omega, by omega, by omega⟩
  · intro h0 op hop idx hidx
    obtain ⟨s, hs0, hs, hlo, hhi⟩ := invA_writes_slot NB IB P a hIB hNB hn op hop idx hidx
    have hs' : s + 1 ≤ a.n / NB := by
      rcases hs with hs | ⟨-, hrem⟩
      · omega
      · exact absurd h0 hrem
    have h4 : (s + 1) * (NB * NB) ≤ a.n / NB * (NB * NB) :=
      mul_le_mul_of_nonneg_right hs' (mul_self_nonneg NB)
    have e5 : a.n / NB * NB * NB = a.n / NB * (NB * NB) := by ring
    rw [e5]
    omega

theorem remainder_handler_witness :
    (rocblas_trtri_trsm_template 4 2 (all_succeed ℚ) lower_5x5).trace.filter
        DeviceOp.is_remainder =
      [DeviceOp.rocblas_trtri rocblas_fill.lower rocblas_diagonal.non_unit 1 24 5 16 4] ∧
    (5 : Int) % 4 ≠ 0 := by
  have h := (remainder_handler 4 2 (all_succeed ℚ) lower_5x5
    (fun i => if i % 5 < i / 5 then 0 else 1) (fun _ => 0)
    (by decide) (by decide) rfl (by decide) rfl (by decide) (by decide) (by decide)).2.2.1
  rw [if_pos (by decide)] at h
  exact ⟨h, by decide⟩

/-- The status the working part returns: that of the stream query, of the
allocation or of the release when one of them fails, otherwise that of the
remainder inversion when `n % NB ≠ 0` and that of the second batched multiply
when not; the status of the first batched multiply never reaches the caller. -/
theorem trtri_trsm_work_status {F : Type} [Field F] (NB IB : Int) (P : Primitives F)
    (uplo : rocblas_fill) (diag : rocblas_diagonal) (n : Int)
    (A : Int → F) (lda : Int) (invA : Int → F) :
    (trtri_trsm_work NB IB P uplo diag n A lda invA).status =
      if P.rocblas_get_stream ≠ rocblas_status.success then P.rocblas_get_stream
      else if P.hipMalloc ≠ hipError_t.hipSuccess then
        P.get_rocblas_status_for_hip_status P.hipMalloc
      else if P.hipFree ≠ hipError_t.hipSuccess then
        P.get_rocblas_status_for_hip_status P.hipFree
      else
        let m1 := (P.rocblas_gemm_batched 0 (first_gemm NB IB uplo lda (n.tdiv NB))
          ⟨A, hipLaunchKernel NB IB P (n.tdiv NB * 2) uplo diag (n.tdiv NB * NB) A lda invA,
            P.scratch⟩).2
        let r2 := P.rocblas_gemm_batched 1 (second_gemm NB IB uplo (n.tdiv NB)) m1
        if n.tmod NB ≠ 0 then
          (P.rocblas_trtri uplo diag (n - n.tdiv NB * NB) r2.2.A
            (rocblas_int_wrap (n.tdiv NB * NB * lda) + n.tdiv NB * NB) lda r2.2.invA
            (n.tdiv NB * NB * NB) NB).1
        else r2.1 := by
  unfold trtri_trsm_work
  by_cases h0 : P.rocblas_get_stream ≠ rocblas_status.success
  · simp only [if_pos h0]
  · by_cases h1 : P.hipMalloc ≠ hipError_t.hipSuccess
    · simp only [if_neg h0, if_pos h1]
    · by_cases h2 : P.hipFree ≠ hipError_t.hipSuccess
      · simp only [if_neg h0, if_neg h1, if_pos h2]
      · by_cases h3 : n.tmod NB ≠ 0
        · simp only [if_neg h0, if_neg h1, if_neg h2, if_pos h3]
        · simp only [if_neg h0, if_neg h1, if_neg h2, if_neg h3]

/-! ## The operands of the two batched multiplies -/

/-- C12: on the lower triangular 2 x 2 call (`NB = 2`, `IB = 1`) the second
batched multiply is issued with scale -1, accumulate 0 and right operand `C`,
but its left operand is at offset 0 of the slot, the quadrant `invA11`, while
`invA22` is at offset `NB*IB + IB = 3`; on the upper triangular 4 x 4 call its
left operand is at offset 3, the quadrant `invA22`, while `invA11` is at 0. -/
theorem second_gemm_left_operand_wrong_quadrant :
    ((gemm_calls (rocblas_trtri_trsm_template 2 1 (all_succeed ℚ) lower_2x2).trace).tail.head?.map
      (fun g => (g.A, g.lda, g.strideA, g.B, g.C))) =
        some (⟨Buffer.invA, 0⟩, 2, 4, ⟨Buffer.C, 0⟩, ⟨Buffer.invA, 1⟩) ∧
    ((gemm_calls (rocblas_trtri_trsm_template 2 1 (all_succeed ℚ) lower_2x2).trace).tail.head?.map
      (fun g => (g.alpha, g.beta))) = some (-1, 0) ∧
    ((2 : Int) * 1 + 1 ≠ 0) ∧
    ((gemm_calls (rocblas_trtri_trsm_template 2 1 (all_succeed ℚ) upper_4x4).trace).tail.head?.map
      (fun g => (g.A, g.lda, g.strideA, g.B, g.C))) =
        some (⟨Buffer.invA, 2 * 1 + 1⟩, 2, 4, ⟨Buffer.C, 0⟩, ⟨Buffer.invA, 2⟩) := by
  refine ⟨by decide, ?_, by decide, by decide⟩
  rfl

/-- C13: on the upper triangular 4 x 4 call with `NB = 2`, `IB = 1`, `lda = 4`
the left operand of the first batched multiply starts, for block 0, at element
`IB*NB = 2` of `A` with leading dimension 4, which is row 2 of column 0; the
sub-block `A12` of block 0 starts at row 0 of column `IB = 1`, element
`IB*lda = 4`. The right operand is `invA22`, at offset `NB*IB + IB = 3`. -/
theorem upper_first_gemm_operand_is_not_A12 :
    ((gemm_calls (rocblas_trtri_trsm_template 2 1 (all_succeed ℚ) upper_4x4).trace).head?.map
      (fun g => (g.A, g.lda, g.strideA, g.B, g.ldb, g.strideB))) =
        some (⟨Buffer.A, 2⟩, 4, 10, ⟨Buffer.invA, 3⟩, 2, 4) ∧
    ((0 * 2 + 1) * upper_4x4.lda + 0 * 2 : Int) = 4 ∧
    (2 : Int) ≠ 4 := by
  decide

/-! ## The dispatcher -/

/-- The trace of a run whose stream query succeeds holds the call of every
thread block below `2 * blocks`. -/
theorem kernel_op_mem_trace {F : Type} [Field F] (NB IB : Int) (P : Primitives F)
    (uplo : rocblas_fill) (diag : rocblas_diagonal) (n : Int)
    (A : Int → F) (lda : Int) (invA : Int → F)
    (hs : P.rocblas_get_stream = rocblas_status.success) (i : Nat)
    (hi : (i : Int) < n.tdiv NB * 2) :
    trtri_trsm_kernel_op NB IB i uplo diag lda ∈
      (trtri_trsm_work NB IB P uplo diag n A lda invA).trace := by
  rw [trtri_trsm_work_trace]
  have h0 : ¬ P.rocblas_get_stream ≠ rocblas_status.success := by simp [hs]
  rw [if_neg h0]
  have hmem : (trtri_trsm_kernel_op NB IB i uplo diag lda : DeviceOp F) ∈
      hipLaunchKernel_trace NB IB (n.tdiv NB * 2) uplo diag (n.tdiv NB * NB) lda := by
    unfold hipLaunchKernel_trace
    exact List.mem_cons_of_mem _
      (List.mem_map.mpr ⟨i, List.mem_range.mpr (by omega), rfl⟩)
  exact List.mem_append_left _ (List.mem_append_left _ (List.mem_append_right _ hmem))

/-- C15: thread block `i < 2 * blocks` is given the half-block of `A` at
offset `i*IB*lda + i*IB`, matrix position `(i*IB, i*IB)`, which is half `i % 2`
of diagonal block `i / 2`, and the destination at offset
`(i/2)*NB*NB + (i % 2)*(NB*IB + IB)` with leading dimension `NB`, the diagonal
quadrant at row and column `(i % 2)*IB` of slot `i / 2`; the offsets are the
same for every `uplo` and `diag`, and the run issues no other inversion of a
half-block. -/
theorem dispatcher_placement {F : Type} [Field F] (NB IB : Int) (P : Primitives F)
    (a : Args F) (A invA : Int → F)
    (hh : a.handle ≠ none)
    (hu : a.uplo = rocblas_fill.lower ∨ a.uplo = rocblas_fill.upper)
    (hA : a.A = some A) (hl : a.n ≤ a.lda) (hI : a.invA = some invA) (hn : 0 < a.n)
    (hIB : 0 < IB) (hNB : NB = 2 * IB)
    (hs : P.rocblas_get_stream = rocblas_status.success)
    (i : Nat) (hi : (i : Int) < 2 * (a.n / NB)) :
    DeviceOp.trtri_device i a.uplo a.diag IB ((i : Int) * IB * a.lda + (i : Int) * IB) a.lda
        (((i / 2 : Nat) : Int) * NB * NB + ((i % 2 : Nat) : Int) * (NB * IB + IB)) NB
      ∈ (rocblas_trtri_trsm_template NB IB P a).trace ∧
    (i : Int) * IB * a.lda + (i : Int) * IB = ((i : Int) * IB) * a.lda + (i : Int) * IB ∧
    (i : Int) * IB * a.lda + (i : Int) * IB =
      ((i / 2 : Nat) : Int) * (NB * a.lda + NB) + ((i % 2 : Nat) : Int) * (IB * a.lda + IB) ∧
    ((i / 2 : Nat) : Int) * NB * NB + ((i % 2 : Nat) : Int) * (NB * IB + IB) =
      ((i / 2 : Nat) : Int) * NB * NB + (((i % 2 : Nat) : Int) * IB) * NB
        + ((i % 2 : Nat) : Int) * IB ∧
    (∀ uplo diag, ∃ j u d m l w,
      (trtri_trsm_kernel_op NB IB i uplo diag a.lda : DeviceOp F) =
        DeviceOp.trtri_device j u d m (individual_A IB a.lda i) l (individual_invA NB IB i) w) ∧
    (∀ j u d m x l v w, DeviceOp.trtri_device j u d m x l v w ∈
        (rocblas_trtri_trsm_template NB IB P a).trace →
      (j : Int) < 2 * (a.n / NB) ∧ u = a.uplo ∧ d = a.diag ∧ m = IB ∧
      x = (j : Int) * IB * a.lda + (j : Int) * IB ∧ l = a.lda ∧
      v = ((j / 2 : Nat) : Int) * NB * NB + ((j % 2 : Nat) : Int) * (NB * IB + IB) ∧ w = NB) := by
  have hNBpos : 0 < NB := by omega
  obtain ⟨hd, -⟩ := tdiv_eq_of_pos a.n NB hn hNBpos
  have hinv : ∀ j : Nat, individual_invA NB IB j =
      ((j / 2 : Nat) : Int) * NB * NB + ((j % 2 : Nat) : Int) * (NB * IB + IB) := by
    intro j
    unfold individual_invA
    rcases Nat.mod_two_eq_zero_or_one j with h2 | h2 <;> simp [h2]
  have hi2 : (i : Int) = 2 * ((i / 2 : Nat) : Int) + ((i % 2 : Nat) : Int) := by omega
  rw [rocblas_trtri_trsm_template_of_valid NB IB P a A invA hh hu hA hl hI hn]
  refine ⟨?_, by ring, ?_, by ring, ?_, ?_⟩
  · have h := kernel_op_mem_trace NB IB P a.uplo a.diag a.n A a.lda invA hs i
      (by rw [hd]; omega)
    unfold trtri_trsm_kernel_op at h
    rw [hinv] at h
    exact h
  · subst hNB
    generalize ((i / 2 : Nat) : Int) = q at hi2
    generalize ((i % 2 : Nat) : Int) = e at hi2
    rw [hi2]
    ring
  · intro uplo diag
    exact ⟨i, uplo, diag, IB, a.lda, NB, rfl⟩
  · intro j u d m x l v w hmem
    rcases trtri_trsm_work_mem_trace _ _ _ _ _ _ _ _ _ _ hmem with
      h | h | ⟨i', hi', h⟩ | h | h | h | h | ⟨-, h⟩
    · cases h
    · cases h
    · unfold trtri_trsm_kernel_op at h
      injection h with h1 h2 h3 h4 h5 h6 h7 h8
      subst h1
      rw [hd] at hi'
      refine ⟨by omega, h2.symm, h3.symm, h4.symm, ?_, h6.symm, ?_, h8.symm⟩
      · rw [← h5]; rfl
      · rw [← h7]; exact hinv i'
    · cases h
    · cases h
    · cases h
    · cases h
    · cases h

theorem dispatcher_placement_witness :
    DeviceOp.trtri_device 1 rocblas_fill.lower rocblas_diagonal.non_unit 2 12 5 10 4 ∈
      (rocblas_trtri_trsm_template 4 2 (all_succeed ℚ) lower_5x5).trace :=
  (dispatcher_placement 4 2 (all_succeed ℚ) lower_5x5
    (fun i => if i % 5 < i / 5 then 0 else 1) (fun _ => 0)
    (by decide) (by decide) rfl (by decide) rfl (by decide) (by decide) (by decide)
    rfl 1 (by decide)).1

/-- The half-blocks of `A` given to two different thread blocks are disjoint
when the leading dimension covers the rows of the full blocks. -/
theorem kernel_reads_disjoint (IB lda blocks : Int) (i j : Nat) (idx : Int) (hIB : 0 < IB)
    (hlda : blocks * (2 * IB) ≤ lda) (hij : i ≠ j)
    (hi : (i : Int) < 2 * blocks) (hj : (j : Int) < 2 * blocks)
    (h : idx ∈ region (individual_A IB lda i) lda IB.toNat IB.toNat) :
    idx ∉ region (individual_A IB lda j) lda IB.toNat IB.toNat := by
  intro h'
  obtain ⟨c, hc, r, hr, e⟩ := (mem_region _ _ _ _ _).mp h
  obtain ⟨c', hc', r', hr', e'⟩ := (mem_region _ _ _ _ _).mp h'
  unfold individual_A at e e'
  have hi1 : ((i : Int) + 1) * IB ≤ (2 * blocks) * IB :=
    mul_le_mul_of_nonneg_right (by omega) (by omega)
  have hj1 : ((j : Int) + 1) * IB ≤ (2 * blocks) * IB :=
    mul_le_mul_of_nonneg_right (by omega) (by omega)
  have hi0 : 0 ≤ (i : Int) * IB := mul_nonneg (by omega) (by omega)
  have hj0 : 0 ≤ (j : Int) * IB := mul_nonneg (by omega) (by omega)
  have e1 : ((i : Int) + 1) * IB = (i : Int) * IB + IB := by ring
  have e2 : ((j : Int) + 1) * IB = (j : Int) * IB + IB := by ring
  have e3 : (2 * blocks) * IB = blocks * (2 * IB) := by ring
  have key : ((i : Int) * IB + c) * lda + ((i : Int) * IB + r) =
      ((j : Int) * IB + c') * lda + ((j : Int) * IB + r') := by
    have a1 : ((i : Int) * IB + c) * lda + ((i : Int) * IB + r) =
        (i : Int) * IB * lda + (i : Int) * IB + (c : Int) * lda + (r : Int) := by ring
    have a2 : ((j : Int) * IB + c') * lda + ((j : Int) * IB + r') =
        (j : Int) * IB * lda + (j : Int) * IB + (c' : Int) * lda + (r' : Int) := by ring
    rw [a1, a2, ← e, ← e']
  obtain ⟨k1, -⟩ := div_mod_unique lda _ _ _ _ (by omega) (by omega) (by omega) (by omega) key
  obtain ⟨k2, -⟩ := div_mod_unique IB (i : Int) (c : Int) (j : Int) (c' : Int)
    (by omega) (by omega) (by omega) (by omega) k1
  omega

/-- C17: for two different thread blocks `i`, `j` below `2 * blocks`, with
`NB = 2 * IB`, `IB > 0` and `lda ≥ blocks * NB`, the `IB x IB` destinations in
the output buffer are disjoint and the `IB x IB` half-blocks read from `A` are
disjoint; the two thread blocks `2k` and `2k + 1` of one slot never overlap. -/
theorem dispatcher_work_disjoint {F : Type} (NB IB lda blocks : Int)
    (uplo : rocblas_fill) (diag : rocblas_diagonal) (i j : Nat)
    (hIB : 0 < IB) (hNB : NB = 2 * IB) (hlda : blocks * NB ≤ lda) (hij : i ≠ j)
    (hi : (i : Int) < 2 * blocks) (hj : (j : Int) < 2 * blocks) :
    (∀ idx, idx ∈ (trtri_trsm_kernel_op NB IB i uplo diag lda : DeviceOp F).invA_writes →
      idx ∉ (trtri_trsm_kernel_op NB IB j uplo diag lda : DeviceOp F).invA_writes) ∧
    (∀ idx, idx ∈ (trtri_trsm_kernel_op NB IB i uplo diag lda : DeviceOp F).A_reads →
      idx ∉ (trtri_trsm_kernel_op NB IB j uplo diag lda : DeviceOp F).A_reads) ∧
    (∀ (k : Nat) idx,
      idx ∈ (trtri_trsm_kernel_op NB IB (2 * k) uplo diag lda : DeviceOp F).invA_writes →
      idx ∉ (trtri_trsm_kernel_op NB IB (2 * k + 1) uplo diag lda : DeviceOp F).invA_writes) ∧
    (trtri_trsm_kernel_op NB IB i uplo diag lda : DeviceOp F).invA_writes =
      region (((i / 2 : Nat) : Int) * NB * NB + ((i % 2 : Nat) : Int) * (NB * IB + IB)) NB
        IB.toNat IB.toNat ∧
    (trtri_trsm_kernel_op NB IB i uplo diag lda : DeviceOp F).A_reads =
      region ((i : Int) * IB * lda + (i : Int) * IB) lda IB.toNat IB.toNat := by
  refine ⟨?_, ?_, ?_, ?_, rfl⟩
  · intro idx h
    simp only [trtri_trsm_kernel_op, DeviceOp.invA_writes] at h ⊢
    exact kernel_writes_disjoint NB IB i j idx hIB hNB hij h
  · intro idx h
    simp only [trtri_trsm_kernel_op, DeviceOp.A_reads] at h ⊢
    subst hNB
    exact kernel_reads_disjoint IB lda blocks i j idx hIB hlda hij hi hj h
  · intro k idx h
    simp only [trtri_trsm_kernel_op, DeviceOp.invA_writes] at h ⊢
    exact kernel_writes_disjoint NB IB (2 * k) (2 * k + 1) idx hIB hNB (by omega) h
  · simp only [trtri_trsm_kernel_op, DeviceOp.invA_writes]
    congr 1
    unfold individual_invA
    rcases Nat.mod_two_eq_zero_or_one i with h2 | h2 <;> simp [h2]

theorem dispatcher_work_disjoint_witness :
    (10 : Int) ∈ (trtri_trsm_kernel_op 4 2 1 rocblas_fill.lower rocblas_diagonal.non_unit 5 :
      DeviceOp ℚ).invA_writes ∧
    (10 : Int) ∉ (trtri_trsm_kernel_op 4 2 0 rocblas_fill.lower rocblas_diagonal.non_unit 5 :
      DeviceOp ℚ).invA_writes ∧
    (12 : Int) ∉ (trtri_trsm_kernel_op 4 2 0 rocblas_fill.lower rocblas_diagonal.non_unit 5 :
      DeviceOp ℚ).A_reads :=
  have h := dispatcher_work_disjoint (F := ℚ) 4 2 5 1 rocblas_fill.lower
    rocblas_diagonal.non_unit 1 0 (by decide) (by decide) (by decide) (by decide) (by decide)
    (by decide)
  ⟨by decide, h.1 10 (by decide), h.2.1 12 (by decide)⟩

/-! ## The Combiner -/

/-- The diagonal quadrants of the slots are not written by the second batched
multiply. -/
theorem diagonal_not_second_gemm_write {F : Type} [Field F] (NB IB : Int)
    (uplo : rocblas_fill) (blocks k r c : Int) (hNB : NB = 2 * IB)
    (hr0 : 0 ≤ r) (hr : r < NB) (hc0 : 0 ≤ c) (hc : c < NB)
    (hdiag : (r < IB ∧ c < IB) ∨ (IB ≤ r ∧ IB ≤ c)) :
    k * NB * NB + c * NB + r ∉
      (DeviceOp.rocblas_gemm_batched (second_gemm NB IB uplo blocks : GemmCall F)).invA_writes := by
  intro h
  obtain ⟨k', c', r', hk0, hk, hc0', hc', hr0', hr', e⟩ :=
    second_gemm_write_decomp NB IB uplo blocks _ h
  by_cases hu : uplo = rocblas_fill.lower
  · simp only [hu, if_true] at e
    obtain ⟨h1, h2, h3⟩ := slot_decomp_unique NB _ _ _ _ _ _
      hc0 hc hr0 hr (by omega) (by omega) (by omega) (by omega) e
    omega
  · simp only [hu, if_false] at e
    obtain ⟨h1, h2, h3⟩ := slot_decomp_unique NB _ _ _ _ _ _
      hc0 hc hr0 hr (by omega) (by omega) (by omega) (by omega) e
    omega

/-- The destination of batch member `k` of the second batched multiply, in
slot coordinates. -/
theorem second_gemm_destination (NB IB : Int) (uplo : rocblas_fill) (k : Nat) (idx : Int)
    (hIB : 0 < IB) (hNB : NB = 2 * IB) :
    idx ∈ region (invA21_invA12_offset NB IB uplo + (k : Int) * (NB * NB)) NB
        IB.toNat IB.toNat ↔
      ∃ r c : Int,
        (if uplo = rocblas_fill.lower then IB ≤ r ∧ r < NB ∧ 0 ≤ c ∧ c < IB
          else 0 ≤ r ∧ r < IB ∧ IB ≤ c ∧ c < NB) ∧
        idx = (k : Int) * NB * NB + c * NB + r := by
  rw [mem_region]
  unfold invA21_invA12_offset
  constructor
  · rintro ⟨c, hc, r, hr, rfl⟩
    by_cases hu : uplo = rocblas_fill.lower
    · refine ⟨IB + r, c, ?_, ?_⟩
      · rw [if_pos hu]; omega
      · rw [if_pos hu]; ring
    · refine ⟨r, IB + c, ?_, ?_⟩
      · rw [if_neg hu]; omega
      · rw [if_neg hu]; ring
  · rintro ⟨r, c, hrc, rfl⟩
    by_cases hu : uplo = rocblas_fill.lower
    · rw [if_pos hu] at hrc
      refine ⟨c.toNat, by omega, (r - IB).toNat, by omega, ?_⟩
      have e1 : ((c.toNat : Nat) : Int) = c := Int.toNat_of_nonneg (by omega)
      have e2 : (((r - IB).toNat : Nat) : Int) = r - IB := Int.toNat_of_nonneg (by omega)
      rw [if_pos hu, e1, e2]; ring
    · rw [if_neg hu] at hrc
      refine ⟨(c - IB).toNat, by omega, r.toNat, by omega, ?_⟩
      have e1 : (((c - IB).toNat : Nat) : Int) = c - IB := Int.toNat_of_nonneg (by omega)
      have e2 : ((r.toNat : Nat) : Int) = r := Int.toNat_of_nonneg (by omega)
      rw [if_neg hu, e1, e2]; ring

/-- C16: the second batched multiply writes, for block `k`, exactly the
off-diagonal quadrant of slot `k` on the `uplo` side (rows `IB..NB-1`, columns
`0..IB-1` for lower, rows `0..IB-1`, columns `IB..NB-1` for upper); these
indices meet no diagonal quadrant of any slot and no other slot, and a Combiner
whose multiplies write only their destinations leaves every diagonal quadrant
as the dispatcher wrote it. -/
theorem combiner_destination {F : Type} [Field F] (NB IB lda blocks : Int)
    (P : Primitives F) (uplo : rocblas_fill) (hIB : 0 < IB) (hNB : NB = 2 * IB)
    (hgemm : gemm_batched_frame P) :
    (∀ idx, idx ∈ (DeviceOp.rocblas_gemm_batched
        (second_gemm NB IB uplo blocks : GemmCall F)).invA_writes ↔
      ∃ k : Nat, (k : Int) < blocks ∧
        idx ∈ region (invA21_invA12_offset NB IB uplo + (k : Int) * (NB * NB)) NB
          IB.toNat IB.toNat) ∧
    (∀ (k : Nat) idx,
      idx ∈ region (invA21_invA12_offset NB IB uplo + (k : Int) * (NB * NB)) NB
          IB.toNat IB.toNat ↔
        ∃ r c : Int,
          (if uplo = rocblas_fill.lower then IB ≤ r ∧ r < NB ∧ 0 ≤ c ∧ c < IB
            else 0 ≤ r ∧ r < IB ∧ IB ≤ c ∧ c < NB) ∧
          idx = (k : Int) * NB * NB + c * NB + r) ∧
    (∀ (k : Nat) idx,
      idx ∈ region (invA21_invA12_offset NB IB uplo + (k : Int) * (NB * NB)) NB
          IB.toNat IB.toNat →
      ∀ k' r' c' : Int, 0 ≤ r' → r' < NB → 0 ≤ c' → c' < NB →
        ((r' < IB ∧ c' < IB) ∨ (IB ≤ r' ∧ IB ≤ c') ∨ k' ≠ (k : Int)) →
        idx ≠ k' * NB * NB + c' * NB + r') ∧
    (∀ (m : Mem F) (k r c : Int), 0 ≤ r → r < NB → 0 ≤ c → c < NB →
      ((r < IB ∧ c < IB) ∨ (IB ≤ r ∧ IB ≤ c)) →
      (P.rocblas_gemm_batched 1 (second_gemm NB IB uplo blocks)
        (P.rocblas_gemm_batched 0 (first_gemm NB IB uplo lda blocks) m).2).2.invA
          (k * NB * NB + c * NB + r) = m.invA (k * NB * NB + c * NB + r)) := by
  refine ⟨?_, fun k idx => second_gemm_destination NB IB uplo k idx hIB hNB, ?_, ?_⟩
  · intro idx
    simp only [DeviceOp.invA_writes, second_gemm, if_true]
    constructor
    · intro h
      obtain ⟨k, hk, h⟩ := List.mem_flatMap.mp h
      exact ⟨k, by have := List.mem_range.mp hk; omega, h⟩
    · rintro ⟨k, hk, h⟩
      exact List.mem_flatMap.mpr ⟨k, List.mem_range.mpr (by omega), h⟩
  · intro k idx h k' r' c' hr0 hr hc0 hc hcase heq
    obtain ⟨r, c, hrc, e⟩ := (second_gemm_destination NB IB uplo k idx hIB hNB).mp h
    rw [e] at heq
    by_cases hu : uplo = rocblas_fill.lower
    · rw [if_pos hu] at hrc
      obtain ⟨h1, h2, h3⟩ := slot_decomp_unique NB _ _ _ _ _ _
        (by omega) (by omega) (by omega) (by omega) hc0 hc hr0 hr heq
      omega
    · rw [if_neg hu] at hrc
      obtain ⟨h1, h2, h3⟩ := slot_decomp_unique NB _ _ _ _ _ _
        (by omega) (by omega) (by omega) (by omega) hc0 hc hr0 hr heq
      omega
  · intro m k r c hr0 hr hc0 hc hdiag
    rw [hgemm 1 _ _ _ (diagonal_not_second_gemm_write NB IB uplo blocks k r c hNB hr0 hr hc0 hc
        hdiag),
      hgemm 0 _ _ _ (by simp [DeviceOp.invA_writes, first_gemm])]

theorem combiner_destination_witness :
    (1 : Int) ∈ (DeviceOp.rocblas_gemm_batched
        (second_gemm 2 1 rocblas_fill.lower 1 : GemmCall ℚ)).invA_writes ∧
    (1 : Int) ≠ 0 * 2 * 2 + 0 * 2 + 0 :=
  have h := combiner_destination 2 1 2 1 (all_succeed ℚ) rocblas_fill.lower (by decide)
    (by decide) (reference_gemm_batched_frame _ _ _ _ _)
  ⟨(h.1 1).mpr ⟨0, by decide, by decide⟩,
    h.2.2.1 0 1 (by decide) 0 0 0 (by decide) (by decide) (by decide) (by decide)
      (Or.inl ⟨by decide, by decide⟩)⟩

/-! ## What the specified multiply stores -/

theorem foldl_write_C_eq {α F : Type} (p : DevPtr) (hp : p.buf = Buffer.C) (ix : α → Int)
    (val : α → F) (l : List α) (m : Mem F) :
    (l.foldl (fun acc x => acc.write p (ix x) (val x)) m).C =
      l.foldl (fun f x => Function.update f (p.off + ix x) (val x)) m.C := by
  induction l generalizing m with
  | nil => rfl
  | cons y l ih =>
    rw [List.foldl_cons, List.foldl_cons, ih]
    simp only [Mem.write, hp]

theorem foldl_write_invA_eq {α F : Type} (p : DevPtr) (hp : p.buf = Buffer.invA)
    (ix : α → Int) (val : α → F) (l : List α) (m : Mem F) :
    (l.foldl (fun acc x => acc.write p (ix x) (val x)) m).invA =
      l.foldl (fun f x => Function.update f (p.off + ix x) (val x)) m.invA := by
  induction l generalizing m with
  | nil => rfl
  | cons y l ih =>
    rw [List.foldl_cons, List.foldl_cons, ih]
    simp only [Mem.write, hp]

theorem foldl_write_A {α F : Type} (p : DevPtr) (hp : p.buf ≠ Buffer.A) (ix : α → Int)
    (val : α → F) (l : List α) (m : Mem F) :
    (l.foldl (fun acc x => acc.write p (ix x) (val x)) m).A = m.A := by
  induction l generalizing m with
  | nil => rfl
  | cons y l ih =>
    rw [List.foldl_cons, ih]
    unfold Mem.write
    cases hb : p.buf with
    | A => exact absurd hb hp
    | invA => rfl
    | C => rfl

/-- The specified multiply changes the output buffer only at the indices of
its destination matrices. -/
theorem gemm_batched_spec_frame {F : Type} [Field F] (g : GemmCall F) (m : Mem F) (idx : Int)
    (hidx : idx ∉ (DeviceOp.rocblas_gemm_batched g).invA_writes) :
    (gemm_batched_spec g m).invA idx = m.invA idx := by
  unfold gemm_batched_spec
  apply foldl_write_invA g.C (fun cell : Nat × Nat × Nat =>
    (cell.1 : Int) * g.strideC + (cell.2.2 : Int) * g.ldc + (cell.2.1 : Int))
  intro hb cell hcell heq
  obtain ⟨h1, h2, h3⟩ := (mem_batch_cells _ _ _ _).mp hcell
  apply hidx
  simp only [DeviceOp.invA_writes, hb, if_true]
  exact List.mem_flatMap.mpr ⟨cell.1, List.mem_range.mpr h1,
    (mem_region _ _ _ _ _).mpr ⟨cell.2.2, h3, cell.2.1, h2, by rw [← heq]; ring⟩⟩

/-- What the specified multiply stores at `(r, c)` of batch member `i` of a
destination in the scratch buffer, when no other cell has the same index. -/
theorem gemm_batched_spec_C_value {F : Type} [Field F] (g : GemmCall F) (m : Mem F)
    (hC : g.C.buf = Buffer.C) (i r c : Nat)
    (hi : i < g.batch.toNat) (hr : r < g.m.toNat) (hc : c < g.n.toNat)
    (hinj : ∀ i' r' c' : Nat, i' < g.batch.toNat → r' < g.m.toNat → c' < g.n.toNat →
      (i' : Int) * g.strideC + (c' : Int) * g.ldc + (r' : Int) =
        (i : Int) * g.strideC + (c : Int) * g.ldc + (r : Int) → i' = i ∧ r' = r ∧ c' = c) :
    (gemm_batched_spec g m).C
        (g.C.off + ((i : Int) * g.strideC + (c : Int) * g.ldc + (r : Int))) =
      gemm_value g m i r c := by
  unfold gemm_batched_spec
  rw [foldl_write_C_eq g.C hC (fun cell : Nat × Nat × Nat =>
    (cell.1 : Int) * g.strideC + (cell.2.2 : Int) * g.ldc + (cell.2.1 : Int))
    (fun cell : Nat × Nat × Nat => gemm_value g m cell.1 cell.2.1 cell.2.2)]
  exact foldl_update_of_mem
    (fun cell : Nat × Nat × Nat =>
      g.C.off + ((cell.1 : Int) * g.strideC + (cell.2.2 : Int) * g.ldc + (cell.2.1 : Int)))
    (fun cell : Nat × Nat × Nat => gemm_value g m cell.1 cell.2.1 cell.2.2)
    _ m.C (i, r, c) ((mem_batch_cells _ _ _ _).mpr ⟨hi, hr, hc⟩)
    (by
      intro y hy heq
      obtain ⟨h1, h2, h3⟩ := (mem_batch_cells _ _ _ _).mp hy
      simp only at heq
      obtain ⟨e1, e2, e3⟩ := hinj y.1 y.2.1 y.2.2 h1 h2 h3 (by omega)
      simp only [e1, e2, e3])

/-- What the specified multiply stores at `(r, c)` of batch member `i` of a
destination in the output buffer, when no other cell has the same index. -/
theorem gemm_batched_spec_invA_value {F : Type} [Field F] (g : GemmCall F) (m : Mem F)
    (hC : g.C.buf = Buffer.invA) (i r c : Nat)
    (hi : i < g.batch.toNat) (hr : r < g.m.toNat) (hc : c < g.n.toNat)
    (hinj : ∀ i' r' c' : Nat, i' < g.batch.toNat → r' < g.m.toNat → c' < g.n.toNat →
      (i' : Int) * g.strideC + (c' : Int) * g.ldc + (r' : Int) =
        (i : Int) * g.strideC + (c : Int) * g.ldc + (r : Int) → i' = i ∧ r' = r ∧ c' = c) :
    (gemm_batched_spec g m).invA
        (g.C.off + ((i : Int) * g.strideC + (c : Int) * g.ldc + (r : Int))) =
      gemm_value g m i r c := by
  unfold gemm_batched_spec
  rw [foldl_write_invA_eq g.C hC (fun cell : Nat × Nat × Nat =>
    (cell.1 : Int) * g.strideC + (cell.2.2 : Int) * g.ldc + (cell.2.1 : Int))
    (fun cell : Nat × Nat × Nat => gemm_value g m cell.1 cell.2.1 cell.2.2)]
  exact foldl_update_of_mem
    (fun cell : Nat × Nat × Nat =>
      g.C.off + ((cell.1 : Int) * g.strideC + (cell.2.2 : Int) * g.ldc + (cell.2.1 : Int)))
    (fun cell : Nat × Nat × Nat => gemm_value g m cell.1 cell.2.1 cell.2.2)
    _ m.invA (i, r, c) ((mem_batch_cells _ _ _ _).mpr ⟨hi, hr, hc⟩)
    (by
      intro y hy heq
      obtain ⟨h1, h2, h3⟩ := (mem_batch_cells _ _ _ _).mp hy
      simp only at heq
      obtain ⟨e1, e2, e3⟩ := hinj y.1 y.2.1 y.2.2 h1 h2 h3 (by omega)
      simp only [e1, e2, e3])

/-- Batch member, column and row of an element of a batch of contiguous
`N x N` matrices are unique. -/
theorem cell_unique (N : Int) (i r c i' r' c' : Nat)
    (hr : (r : Int) < N) (hc : (c : Int) < N) (hr' : (r' : Int) < N) (hc' : (c' : Int) < N)
    (h : (i' : Int) * (N * N) + (c' : Int) * N + (r' : Int) =
      (i : Int) * (N * N) + (c : Int) * N + (r : Int)) : i' = i ∧ r' = r ∧ c' = c := by
  have e1 : (i' : Int) * (N * N) = (i' : Int) * N * N := by ring
  have e2 : (i : Int) * (N * N) = (i : Int) * N * N := by ring
  rw [e1, e2] at h
  obtain ⟨h1, h2, h3⟩ := slot_decomp_unique N _ _ _ _ _ _
    (by omega) hc' (by omega) hr' (by omega) hc (by omega) hr h
  omega

theorem gemm_value_first {F : Type} [Field F] (NB IB : Int) (uplo : rocblas_fill)
    (lda blocks : Int) (m : Mem F) (i r c : Nat) :
    gemm_value (first_gemm NB IB uplo lda blocks) m i r c =
      ((List.range IB.toNat).map (fun l : Nat =>
        m.A (A12_A21_offset NB IB uplo
            + ((i : Int) * rocblas_int_wrap (NB * lda + NB) + (l : Int) * lda + (r : Int))) *
          m.invA (invA11_invA22_offset NB IB uplo
            + ((i : Int) * (NB * NB) + (c : Int) * NB + (l : Int))))).sum := by
  simp [gemm_value, first_gemm, operand, Mem.read]

theorem gemm_value_second {F : Type} [Field F] (NB IB : Int) (uplo : rocblas_fill)
    (blocks : Int) (m : Mem F) (i r c : Nat) :
    gemm_value (second_gemm NB IB uplo blocks) m i r c =
      -((List.range IB.toNat).map (fun l : Nat =>
        m.invA (invA11_invA22_offset NB IB uplo
            + ((i : Int) * (NB * NB) + (l : Int) * NB + (r : Int))) *
          m.C ((i : Int) * (IB * IB) + (c : Int) * IB + (l : Int)))).sum := by
  simp [gemm_value, second_gemm, operand, Mem.read]

theorem gemm_calls_append {F : Type} (l1 l2 : List (DeviceOp F)) :
    gemm_calls (l1 ++ l2) = gemm_calls l1 ++ gemm_calls l2 := by
  induction l1 with
  | nil => rfl
  | cons op l1 ih =>
    cases op <;> simp [gemm_calls, ih]

theorem gemm_calls_kernel_ops {F : Type} (NB IB : Int) (uplo : rocblas_fill)
    (diag : rocblas_diagonal) (lda : Int) (l : List Nat) :
    gemm_calls (l.map (fun i => (trtri_trsm_kernel_op NB IB i uplo diag lda : DeviceOp F)))
      = [] := by
  induction l with
  | nil => rfl
  | cons i l ih =>
    rw [List.map_cons]
    unfold trtri_trsm_kernel_op
    simp only [gemm_calls]
    exact ih

/-- The batched multiplies of a run whose stream query and allocation
succeed: the first, then the second. -/
theorem gemm_calls_work {F : Type} [Field F] (NB IB : Int) (P : Primitives F)
    (uplo : rocblas_fill) (diag : rocblas_diagonal) (n : Int)
    (A : Int → F) (lda : Int) (invA : Int → F)
    (hs : P.rocblas_get_stream = rocblas_status.success)
    (hm : P.hipMalloc = hipError_t.hipSuccess) :
    gemm_calls (trtri_trsm_work NB IB P uplo diag n A lda invA).trace =
      [first_gemm NB IB uplo lda (n.tdiv NB), second_gemm NB IB uplo (n.tdiv NB)] := by
  rw [trtri_trsm_work_trace]
  have h0 : ¬ P.rocblas_get_stream ≠ rocblas_status.success := by simp [hs]
  have h1 : ¬ P.hipMalloc ≠ hipError_t.hipSuccess := by simp [hm]
  rw [if_neg h0, if_neg h1]
  split_ifs <;>
    simp [gemm_calls_append, gemm_calls_kernel_ops, gemm_calls, hipLaunchKernel_trace]

/-- What the specified first multiply stores in the scratch buffer. -/
theorem first_gemm_C_value {F : Type} [Field F] (NB IB : Int) (uplo : rocblas_fill)
    (lda blocks : Int) (m : Mem F) (k r c : Nat)
    (hk : (k : Int) < blocks) (hr : (r : Int) < IB) (hc : (c : Int) < IB) :
    (gemm_batched_spec (first_gemm NB IB uplo lda blocks) m).C
        ((k : Int) * (IB * IB) + (c : Int) * IB + (r : Int)) =
      gemm_value (first_gemm NB IB uplo lda blocks) m k r c := by
  have hval := gemm_batched_spec_C_value (first_gemm NB IB uplo lda blocks) m rfl k r c
    (by show k < blocks.toNat; omega) (by show r < IB.toNat; omega)
    (by show c < IB.toNat; omega)
    (by
      intro i' r' c' _ hr' hc' heq
      have hr'' : r' < IB.toNat := hr'
      have hc'' : c' < IB.toNat := hc'
      exact cell_unique IB k r c i' r' c' hr hc (by omega) (by omega) heq)
  have e : (k : Int) * (IB * IB) + (c : Int) * IB + (r : Int) =
      (first_gemm NB IB uplo lda blocks : GemmCall F).C.off +
        ((k : Int) * (first_gemm NB IB uplo lda blocks : GemmCall F).strideC +
          (c : Int) * (first_gemm NB IB uplo lda blocks : GemmCall F).ldc + (r : Int)) := by
    show _ = 0 + ((k : Int) * (IB * IB) + (c : Int) * IB + (r : Int))
    rw [zero_add]
  rw [e]
  exact hval

/-- What the specified second multiply stores in the output buffer. -/
theorem second_gemm_invA_value {F : Type} [Field F] (NB IB : Int) (uplo : rocblas_fill)
    (blocks : Int) (m : Mem F) (hNB : NB = 2 * IB) (k r c : Nat)
    (hk : (k : Int) < blocks) (hr : (r : Int) < IB) (hc : (c : Int) < IB) :
    (gemm_batched_spec (second_gemm NB IB uplo blocks) m).invA
        (invA21_invA12_offset NB IB uplo
          + ((k : Int) * (NB * NB) + (c : Int) * NB + (r : Int))) =
      gemm_value (second_gemm NB IB uplo blocks) m k r c := by
  exact gemm_batched_spec_invA_value (second_gemm NB IB uplo blocks) m rfl k r c
    (by show k < blocks.toNat; omega) (by show r < IB.toNat; omega)
    (by show c < IB.toNat; omega)
    (by
      intro i' r' c' _ hr' hc' heq
      have hr'' : r' < IB.toNat := hr'
      have hc'' : c' < IB.toNat := hc'
      exact cell_unique NB k r c i' r' c' (by omega) (by omega) (by omega) (by omega) heq)

/-- C14, as stated, fails: on a lower triangular 8 x 8 call with `NB = 4`,
`IB = 2` and `lda = 2^29` the first batched multiply is issued with
`stride_A = -2147483644`, where `NB*lda + NB = 2147483652`; element `(0, 0)` of
the left operand of block 1 is then at offset `-2147483642` of `A`, while the
sub-block `A21` of block 1 starts at row 6 of column 4, offset `2147483654`. -/
theorem first_gemm_lower_stride_wraps :
    ((gemm_calls (rocblas_trtri_trsm_template 4 2 (all_succeed ℚ) wide_8x8).trace).head?.map
      (fun g => (g.A, g.lda, g.strideA, g.batch))) =
        some (⟨Buffer.A, 2⟩, 536870912, -2147483644, 2) ∧
    (4 * wide_8x8.lda + 4 : Int) = 2147483652 ∧
    (2 : Int) + (1 * (-2147483644) + 0 * wide_8x8.lda + 0) = -2147483642 ∧
    ((1 * 4 + 0) * wide_8x8.lda + (1 * 4 + 2 + 0) : Int) = 2147483654 := by
  decide

/-- C14 (amended): for `uplo = lower` and `NB*lda + NB < 2^31` the first
batched multiply is issued with scale 1, accumulate 0, sizes `IB`, batch count
`n / NB` and `stride_A = NB*lda + NB`; for block `k` its left operand is the
sub-block `A21` (rows `k*NB+IB ..`, columns `k*NB ..` of `A`, inside the
`n x n` matrix), its right operand is `invA11` of slot `k`, its destination is
`C + k*IB*IB` with leading dimension `IB`, and an exact multiply stores
`A21 * invA11` there. -/
theorem first_gemm_lower {F : Type} [Field F] (NB IB : Int) (P : Primitives F)
    (a : Args F) (A invA : Int → F)
    (hh : a.handle ≠ none) (hlow : a.uplo = rocblas_fill.lower)
    (hA : a.A = some A) (hl : a.n ≤ a.lda) (hI : a.invA = some invA) (hn : 0 < a.n)
    (hIB : 0 < IB) (hNB : NB = 2 * IB) (hfit : NB * a.lda + NB < 2147483648)
    (hs : P.rocblas_get_stream = rocblas_status.success)
    (hm : P.hipMalloc = hipError_t.hipSuccess)
    (hexact : gemm_batched_exact P)
    (k r c : Nat) (hk : (k : Int) < a.n / NB) (hr : (r : Int) < IB) (hc : (c : Int) < IB) :
    (gemm_calls (rocblas_trtri_trsm_template NB IB P a).trace).head? =
      some (first_gemm NB IB rocblas_fill.lower a.lda (a.n / NB)) ∧
    (first_gemm NB IB rocblas_fill.lower a.lda (a.n / NB) : GemmCall F) =
      { transA := rocblas_operation.none, transB := rocblas_operation.none,
        m := IB, n := IB, k := IB, alpha := 1,
        A := ⟨Buffer.A, IB⟩, lda := a.lda, strideA := NB * a.lda + NB,
        B := ⟨Buffer.invA, 0⟩, ldb := NB, strideB := NB * NB, beta := 0,
        C := ⟨Buffer.C, 0⟩, ldc := IB, strideC := IB * IB, batch := a.n / NB } ∧
    (first_gemm NB IB rocblas_fill.lower a.lda (a.n / NB) : GemmCall F).A.off +
        ((k : Int) * (first_gemm NB IB rocblas_fill.lower a.lda (a.n / NB) : GemmCall F).strideA
          + (c : Int) * a.lda + (r : Int)) =
      ((k : Int) * NB + c) * a.lda + ((k : Int) * NB + IB + r) ∧
    (k : Int) * NB + IB + r < a.n ∧ (k : Int) * NB + IB + r < (k : Int) * NB + NB ∧
    (k : Int) * NB + c < a.n ∧ (k : Int) * NB + c < (k : Int) * NB + IB ∧
    0 + ((k : Int) * (NB * NB) + (c : Int) * NB + (r : Int)) =
      (k : Int) * NB * NB + (c : Int) * NB + (r : Int) ∧
    0 + ((k : Int) * (IB * IB) + (c : Int) * IB + (r : Int)) =
      (k : Int) * IB * IB + (c : Int) * IB + (r : Int) ∧
    (P.rocblas_gemm_batched 0 (first_gemm NB IB rocblas_fill.lower a.lda (a.n / NB))
        ⟨A, hipLaunchKernel NB IB P (a.n / NB * 2) a.uplo a.diag (a.n / NB * NB) A a.lda invA,
          P.scratch⟩).2.C ((k : Int) * IB * IB + (c : Int) * IB + (r : Int)) =
      ((List.range IB.toNat).map (fun l : Nat =>
        A (((k : Int) * NB + l) * a.lda + ((k : Int) * NB + IB + r)) *
          hipLaunchKernel NB IB P (a.n / NB * 2) a.uplo a.diag (a.n / NB * NB) A a.lda invA
            ((k : Int) * NB * NB + (c : Int) * NB + (l : Int)))).sum := by
  have hNBpos : 0 < NB := by omega
  obtain ⟨hd, -⟩ := tdiv_eq_of_pos a.n NB hn hNBpos
  have h1 := Int.ediv_add_emod a.n NB
  have h2 := Int.emod_nonneg a.n (show NB ≠ 0 by omega)
  have hk1 : ((k : Int) + 1) * NB ≤ a.n / NB * NB :=
    mul_le_mul_of_nonneg_right (by omega) (by omega)
  have e1 : ((k : Int) + 1) * NB = (k : Int) * NB + NB := by ring
  have e2 : NB * (a.n / NB) = a.n / NB * NB := mul_comm _ _
  have hpos : 0 ≤ NB * a.lda := mul_nonneg (by omega) (by omega)
  have hw : rocblas_int_wrap (NB * a.lda + NB) = NB * a.lda + NB :=
    rocblas_int_wrap_of_fits _ (by omega) hfit
  have hstride : (first_gemm NB IB rocblas_fill.lower a.lda (a.n / NB) : GemmCall F).strideA
      = NB * a.lda + NB := hw
  have hoff : (first_gemm NB IB rocblas_fill.lower a.lda (a.n / NB) : GemmCall F).A.off = IB :=
    rfl
  refine ⟨?_, ?_, ?_, by omega, by omega, by omega, by omega, by ring, by ring, ?_⟩
  · rw [rocblas_trtri_trsm_template_of_valid NB IB P a A invA hh (Or.inl hlow) hA hl hI hn,
      gemm_calls_work NB IB P a.uplo a.diag a.n A a.lda invA hs hm, hd, hlow]
    rfl
  · simp [first_gemm, A12_A21_offset, invA11_invA22_offset, hw]
  · rw [hstride, hoff]
    ring
  · rw [hexact]
    have e3 : (k : Int) * IB * IB + (c : Int) * IB + (r : Int) =
        (k : Int) * (IB * IB) + (c : Int) * IB + (r : Int) := by ring
    rw [e3, first_gemm_C_value NB IB rocblas_fill.lower a.lda (a.n / NB) _ k r c hk hr hc,
      gemm_value_first, hw]
    congr 1
    apply List.map_congr_left
    intro l _
    simp only [A12_A21_offset, invA11_invA22_offset, if_true, zero_add]
    congr 2 <;> ring

theorem first_gemm_lower_witness :
    (gemm_calls (rocblas_trtri_trsm_template 4 2 (all_succeed ℚ) lower_4x4).trace).head? =
      some (first_gemm 4 2 rocblas_fill.lower lower_4x4.lda (lower_4x4.n / 4)) ∧
    (first_gemm 4 2 rocblas_fill.lower lower_4x4.lda (lower_4x4.n / 4) : GemmCall ℚ).A.off +
        (((0 : Nat) : Int) *
            (first_gemm 4 2 rocblas_fill.lower lower_4x4.lda (lower_4x4.n / 4) :
              GemmCall ℚ).strideA
          + ((1 : Nat) : Int) * lower_4x4.lda + ((1 : Nat) : Int)) =
      (((0 : Nat) : Int) * 4 + ((1 : Nat) : Int)) * lower_4x4.lda
        + (((0 : Nat) : Int) * 4 + 2 + ((1 : Nat) : Int)) :=
  have h := first_gemm_lower 4 2 (all_succeed ℚ) lower_4x4
    (buffer_of [2, 1, 1, 1, 0, 3, 1, 1, 0, 0, 4, 1, 0, 0, 0, 5]) (fun _ => 7)
    (by decide) rfl rfl (by decide) rfl (by decide) (by decide) (by decide) (by decide) rfl rfl
    (fun _ _ _ => rfl) 0 1 1 (by decide) (by decide) (by decide)
  ⟨h.1, h.2.2.1⟩

/-! ## What the output depends on -/

theorem reference_gemm_batched_exact {F : Type} [Field F] (stream : rocblas_status)
    (malloc free : hipError_t) (gemm_status : Nat → rocblas_status)
    (trtri_status : rocblas_status) :
    gemm_batched_exact (reference_primitives F stream malloc free gemm_status trtri_status) :=
  fun _ _ _ => rfl

theorem reference_trtri_device_ignores_destination {F : Type} [Field F]
    (stream : rocblas_status) (malloc free : hipError_t) (gemm_status : Nat → rocblas_status)
    (trtri_status : rocblas_status) :
    trtri_device_ignores_destination
      (reference_primitives F stream malloc free gemm_status trtri_status) := by
  intro uplo diag n A Aoff lda invA invA' invAoff ldinvA idx hld hidx
  show trtri_device_spec uplo diag n A Aoff lda invA invAoff ldinvA idx =
    trtri_device_spec uplo diag n A Aoff lda invA' invAoff ldinvA idx
  obtain ⟨c, hc, r, hr, rfl⟩ := (mem_region _ _ _ _ _).mp hidx
  unfold trtri_device_spec
  have huniq : ∀ y : Nat × Nat, y ∈ square_cells n.toNat →
      invAoff + (y.2 : Int) * ldinvA + (y.1 : Int) = invAoff + (c : Int) * ldinvA + (r : Int) →
      tri_inv_entry uplo diag A Aoff lda y.1 y.2 = tri_inv_entry uplo diag A Aoff lda r c := by
    intro y hy heq
    obtain ⟨h1, h2⟩ := (mem_square_cells _ _).mp hy
    obtain ⟨e1, e2⟩ := div_mod_unique ldinvA (y.2 : Int) (y.1 : Int) (c : Int) (r : Int)
      (by omega) (by omega) (by omega) (by omega) (by omega)
    have e1' : y.2 = c := by omega
    have e2' : y.1 = r := by omega
    rw [e1', e2']
  have key := fun f : Int → F => foldl_update_of_mem
    (fun cell : Nat × Nat => invAoff + (cell.2 : Int) * ldinvA + (cell.1 : Int))
    (fun cell : Nat × Nat => tri_inv_entry uplo diag A Aoff lda cell.1 cell.2)
    (square_cells n.toNat) f (r, c) ((mem_square_cells _ _).mpr ⟨hr, hc⟩) huniq
  simp only at key
  rw [key invA, key invA']

/-- What thread block `j` stored is the same whatever the output buffer held
before the launch. -/
theorem kernel_output_determined {F : Type} (NB IB : Int) (P : Primitives F)
    (hframe : trtri_device_frame P) (hign : trtri_device_ignores_destination P)
    (hIB : 0 < IB) (hNB : NB = 2 * IB)
    (uplo : rocblas_fill) (diag : rocblas_diagonal) (n : Int)
    (A : Int → F) (lda : Int) (invA invA' : Int → F) (grid : Int) (j r c : Nat)
    (hj : j < grid.toNat) (hr : (r : Int) < IB) (hc : (c : Int) < IB) :
    hipLaunchKernel NB IB P grid uplo diag n A lda invA
        (individual_invA NB IB j + (c : Int) * NB + (r : Int)) =
      hipLaunchKernel NB IB P grid uplo diag n A lda invA'
        (individual_invA NB IB j + (c : Int) * NB + (r : Int)) := by
  have hmem : individual_invA NB IB j + (c : Int) * NB + (r : Int) ∈
      region (individual_invA NB IB j) NB IB.toNat IB.toNat :=
    (mem_region _ _ _ _ _).mpr ⟨c, by omega, r, by omega, rfl⟩
  obtain ⟨inv, h⟩ := foldl_kernel_value NB IB P hframe hIB hNB uplo diag n A lda invA _
    grid.toNat j hj hmem
  obtain ⟨inv', h'⟩ := foldl_kernel_value NB IB P hframe hIB hNB uplo diag n A lda invA' _
    grid.toNat j hj hmem
  unfold hipLaunchKernel
  rw [h, h']
  unfold trtri_trsm_kernel
  exact hign _ _ _ _ _ _ _ _ _ _ _ (by omega) hmem

/-- The diagonal quadrant both multiplies read, as the destination of a thread
block: the even one of the slot for lower, the odd one for upper. -/
theorem invA11_invA22_offset_eq (NB IB : Int) (uplo : rocblas_fill) (k : Nat) (x : Int) :
    invA11_invA22_offset NB IB uplo + ((k : Int) * (NB * NB) + x) =
      individual_invA NB IB (2 * k + (if uplo = rocblas_fill.lower then 0 else 1)) + x := by
  unfold invA11_invA22_offset individual_invA
  by_cases hu : uplo = rocblas_fill.lower
  · have e1 : (2 * k + 0) / 2 = k := by omega
    have e2 : ¬ ((2 * k + 0) % 2 = 1) := by omega
    simp only [hu, if_true, e1, e2, if_false]
    ring
  · have e1 : (2 * k + 1) / 2 = k := by omega
    have e2 : (2 * k + 1) % 2 = 1 := by omega
    simp only [hu, if_false, e1, e2, if_true]
    ring

theorem gemm_value_first_congr {F : Type} [Field F] (NB IB : Int) (uplo : rocblas_fill)
    (lda blocks : Int) (m m' : Mem F) (i r c : Nat) (hA : m.A = m'.A)
    (hB : ∀ l : Nat, l < IB.toNat →
      m.invA (invA11_invA22_offset NB IB uplo
          + ((i : Int) * (NB * NB) + ((c : Int) * NB + (l : Int)))) =
        m'.invA (invA11_invA22_offset NB IB uplo
          + ((i : Int) * (NB * NB) + ((c : Int) * NB + (l : Int))))) :
    gemm_value (first_gemm NB IB uplo lda blocks) m i r c =
      gemm_value (first_gemm NB IB uplo lda blocks) m' i r c := by
  rw [gemm_value_first, gemm_value_first]
  congr 1
  apply List.map_congr_left
  intro l hl
  have h := hB l (List.mem_range.mp hl)
  rw [← add_assoc ((i : Int) * (NB * NB))] at h
  rw [hA, h]

theorem gemm_value_second_congr {F : Type} [Field F] (NB IB : Int) (uplo : rocblas_fill)
    (blocks : Int) (m m' : Mem F) (i r c : Nat)
    (hA : ∀ l : Nat, l < IB.toNat →
      m.invA (invA11_invA22_offset NB IB uplo
          + ((i : Int) * (NB * NB) + ((l : Int) * NB + (r : Int)))) =
        m'.invA (invA11_invA22_offset NB IB uplo
          + ((i : Int) * (NB * NB) + ((l : Int) * NB + (r : Int)))))
    (hB : ∀ l : Nat, l < IB.toNat →
      m.C ((i : Int) * (IB * IB) + (c : Int) * IB + (l : Int)) =
        m'.C ((i : Int) * (IB * IB) + (c : Int) * IB + (l : Int))) :
    gemm_value (second_gemm NB IB uplo blocks) m i r c =
      gemm_value (second_gemm NB IB uplo blocks) m' i r c := by
  rw [gemm_value_second, gemm_value_second]
  congr 2
  apply List.map_congr_left
  intro l hl
  have h := hA l (List.mem_range.mp hl)
  rw [← add_assoc ((i : Int) * (NB * NB))] at h
  rw [h, hB l (List.mem_range.mp hl)]

/-- What the two specified multiplies leave in the off-diagonal quadrant they
write depends on `A` and on the diagonal quadrants only. -/
theorem combiner_output_determined {F : Type} [Field F] (NB IB : Int) (uplo : rocblas_fill)
    (lda blocks : Int) (hNB : NB = 2 * IB) (A K K' s s' : Int → F) (k r c : Nat)
    (hk : (k : Int) < blocks) (hr : (r : Int) < IB) (hc : (c : Int) < IB)
    (hK : ∀ j r c : Nat, (j : Int) < 2 * blocks → (r : Int) < IB → (c : Int) < IB →
      K (individual_invA NB IB j + (c : Int) * NB + (r : Int)) =
        K' (individual_invA NB IB j + (c : Int) * NB + (r : Int))) :
    (gemm_batched_spec (second_gemm NB IB uplo blocks)
        (gemm_batched_spec (first_gemm NB IB uplo lda blocks) ⟨A, K, s⟩)).invA
        (invA21_invA12_offset NB IB uplo
          + ((k : Int) * (NB * NB) + (c : Int) * NB + (r : Int))) =
      (gemm_batched_spec (second_gemm NB IB uplo blocks)
        (gemm_batched_spec (first_gemm NB IB uplo lda blocks) ⟨A, K', s'⟩)).invA
        (invA21_invA12_offset NB IB uplo
          + ((k : Int) * (NB * NB) + (c : Int) * NB + (r : Int))) := by
  have hj : ((2 * k + (if uplo = rocblas_fill.lower then 0 else 1) : Nat) : Int) < 2 * blocks := by
    split_ifs <;> omega
  have hread : ∀ (r c : Nat), (r : Int) < IB → (c : Int) < IB →
      K (invA11_invA22_offset NB IB uplo + ((k : Int) * (NB * NB) + ((c : Int) * NB + (r : Int))))
        = K' (invA11_invA22_offset NB IB uplo
          + ((k : Int) * (NB * NB) + ((c : Int) * NB + (r : Int)))) := by
    intro r c hr hc
    rw [invA11_invA22_offset_eq, ← add_assoc]
    exact hK _ r c hj hr hc
  have hfirst : ∀ (Kx sx : Int → F) (idx : Int),
      (gemm_batched_spec (first_gemm NB IB uplo lda blocks) ⟨A, Kx, sx⟩).invA idx = Kx idx :=
    fun Kx sx idx => gemm_batched_spec_frame _ _ idx (by simp [DeviceOp.invA_writes, first_gemm])
  rw [second_gemm_invA_value NB IB uplo blocks _ hNB k r c hk hr hc,
    second_gemm_invA_value NB IB uplo blocks _ hNB k r c hk hr hc]
  apply gemm_value_second_congr
  · intro l hl
    rw [hfirst, hfirst]
    exact hread r l hr (by omega)
  · intro l hl
    rw [first_gemm_C_value NB IB uplo lda blocks _ k l c hk (by omega) hc,
      first_gemm_C_value NB IB uplo lda blocks _ k l c hk (by omega) hc]
    apply gemm_value_first_congr
    · rfl
    · intro l' hl'
      exact hread l' c (by omega) hc

/-- C11, as stated, fails: the same lower triangular 2 x 2 call (`NB = 2`,
`IB = 1`) run on an output buffer of sevens and on one of zeros succeeds both
times and leaves different contents at row 0, column 1 of slot 0. -/
theorem output_depends_on_prior_content :
    (rocblas_trtri_trsm_template 2 1 (all_succeed ℚ)
      { lower_2x2 with invA := some (fun _ => 7) }).status = rocblas_status.success ∧
    (rocblas_trtri_trsm_template 2 1 (all_succeed ℚ)
      { lower_2x2 with invA := some (fun _ => 0) }).status = rocblas_status.success ∧
    (rocblas_trtri_trsm_template 2 1 (all_succeed ℚ)
      { lower_2x2 with invA := some (fun _ => 7) }).entry (0 * 2 * 2 + 1 * 2 + 0) = some 7 ∧
    (rocblas_trtri_trsm_template 2 1 (all_succeed ℚ)
      { lower_2x2 with invA := some (fun _ => 0) }).entry (0 * 2 * 2 + 1 * 2 + 0) = some 0 := by
  refine ⟨by decide, by decide, ?_, ?_⟩ <;>
  simp [rocblas_trtri_trsm_template, lower_2x2, trtri_trsm_work, all_succeed,
    reference_primitives, Outcome.entry, hipLaunchKernel, trtri_trsm_kernel, first_gemm,
    second_gemm, gemm_batched_spec, trtri_device_spec, batch_cells, square_cells,
    gemm_value, operand, Mem.read, Mem.write, individual_A, individual_invA,
    A12_A21_offset, invA11_invA22_offset, invA21_invA12_offset, tri_inv_entry, tri_entry,
    lower_inv, lower_inv_col, buffer_of, Function.update_apply, List.range_succ]

/-- C11 (amended): two calls with the same `uplo`, `diag`, `n`, `A`, `lda` on
full blocks only, in which every step succeeds, leave the same content in the
two diagonal quadrants and in the off-diagonal quadrant on the `uplo` side of
every slot, whatever the two output buffers held before; in the other
off-diagonal quadrant each call leaves what its own buffer held. -/
theorem output_determined_outside_untouched_quadrant {F : Type} [Field F] (NB IB : Int)
    (P : Primitives F) (a : Args F) (A invA invA' : Int → F)
    (hIB : 0 < IB) (hNB : NB = 2 * IB) (hh : a.handle ≠ none)
    (hu : a.uplo = rocblas_fill.lower ∨ a.uplo = rocblas_fill.upper)
    (hA : a.A = some A) (hl : a.n ≤ a.lda) (hn : 0 < a.n) (hdiv : a.n % NB = 0)
    (hs : P.rocblas_get_stream = rocblas_status.success)
    (hm : P.hipMalloc = hipError_t.hipSuccess) (hf : P.hipFree = hipError_t.hipSuccess)
    (hframe : trtri_device_frame P) (hign : trtri_device_ignores_destination P)
    (hexact : gemm_batched_exact P) :
    ∃ out out',
      (rocblas_trtri_trsm_template NB IB P { a with invA := some invA }).invA = some out ∧
      (rocblas_trtri_trsm_template NB IB P { a with invA := some invA' }).invA = some out' ∧
      ∀ k r c : Int, 0 ≤ k → k < a.n / NB → 0 ≤ r → r < NB → 0 ≤ c → c < NB →
        (¬ untouched_quadrant a.uplo IB r c →
          out (k * NB * NB + c * NB + r) = out' (k * NB * NB + c * NB + r)) ∧
        (untouched_quadrant a.uplo IB r c →
          out (k * NB * NB + c * NB + r) = invA (k * NB * NB + c * NB + r) ∧
          out' (k * NB * NB + c * NB + r) = invA' (k * NB * NB + c * NB + r)) := by
  have hNBpos : 0 < NB := by omega
  obtain ⟨hd, hmod⟩ := tdiv_eq_of_pos a.n NB hn hNBpos
  have hrun : ∀ buf : Int → F,
      (rocblas_trtri_trsm_template NB IB P { a with invA := some buf }).invA =
        some (gemm_batched_spec (second_gemm NB IB a.uplo (a.n / NB))
          (gemm_batched_spec (first_gemm NB IB a.uplo a.lda (a.n / NB))
            ⟨A, hipLaunchKernel NB IB P (a.n / NB * 2) a.uplo a.diag (a.n / NB * NB) A a.lda buf,
              P.scratch⟩)).invA := by
    intro buf
    rw [rocblas_trtri_trsm_template_of_valid NB IB P { a with invA := some buf } A buf
      hh hu hA hl rfl hn]
    have h := trtri_trsm_work_invA_of_full_blocks NB IB P a.uplo a.diag a.n A a.lda buf hs hm hf
      (by rw [hmod]; exact hdiv)
    rw [hexact, hexact, hd] at h
    exact h
  refine ⟨_, _, hrun invA, hrun invA', ?_⟩
  intro k r c hk0 hk hr0 hr hc0 hc
  obtain ⟨kn, rfl⟩ := Int.eq_ofNat_of_zero_le hk0
  have hK : ∀ j r c : Nat, (j : Int) < 2 * (a.n / NB) → (r : Int) < IB → (c : Int) < IB →
      hipLaunchKernel NB IB P (a.n / NB * 2) a.uplo a.diag (a.n / NB * NB) A a.lda invA
          (individual_invA NB IB j + (c : Int) * NB + (r : Int)) =
        hipLaunchKernel NB IB P (a.n / NB * 2) a.uplo a.diag (a.n / NB * NB) A a.lda invA'
          (individual_invA NB IB j + (c : Int) * NB + (r : Int)) :=
    fun j r c hj hr hc => kernel_output_determined NB IB P hframe hign hIB hNB a.uplo a.diag _
      A a.lda invA invA' _ j r c (by omega) hr hc
  have hfirst : ∀ (Kx sx : Int → F) (idx : Int),
      (gemm_batched_spec (first_gemm NB IB a.uplo a.lda (a.n / NB)) ⟨A, Kx, sx⟩).invA idx
        = Kx idx :=
    fun Kx sx idx => gemm_batched_spec_frame _ _ idx (by simp [DeviceOp.invA_writes, first_gemm])
  constructor
  · intro hnot
    unfold untouched_quadrant at hnot
    by_cases hdiag : (r < IB ∧ c < IB) ∨ (IB ≤ r ∧ IB ≤ c)
    · -- a diagonal quadrant: what the dispatcher wrote
      rw [gemm_batched_spec_frame _ _ _
          (diagonal_not_second_gemm_write NB IB a.uplo _ kn r c hNB hr0 hr hc0 hc hdiag),
        gemm_batched_spec_frame _ _ _
          (diagonal_not_second_gemm_write NB IB a.uplo _ kn r c hNB hr0 hr hc0 hc hdiag),
        hfirst, hfirst]
      rcases hdiag with ⟨h1, h2⟩ | ⟨h1, h2⟩
      · have e : (kn : Int) * NB * NB + c * NB + r =
            individual_invA NB IB (2 * kn) + ((c.toNat : Nat) : Int) * NB
              + ((r.toNat : Nat) : Int) := by
          unfold individual_invA
          have e1 : 2 * kn / 2 = kn := by omega
          have e2 : ¬ (2 * kn % 2 = 1) := by omega
          simp only [e1, e2, if_false]
          rw [Int.toNat_of_nonneg hr0, Int.toNat_of_nonneg hc0]
        rw [e]
        exact hK _ _ _ (by omega) (by omega) (by omega)
      · have e : (kn : Int) * NB * NB + c * NB + r =
            individual_invA NB IB (2 * kn + 1) + (((c - IB).toNat : Nat) : Int) * NB
              + (((r - IB).toNat : Nat) : Int) := by
          unfold individual_invA
          have e1 : (2 * kn + 1) / 2 = kn := by omega
          have e2 : (2 * kn + 1) % 2 = 1 := by omega
          simp only [e1, e2, if_true]
          rw [Int.toNat_of_nonneg (show 0 ≤ r - IB by omega),
            Int.toNat_of_nonneg (show 0 ≤ c - IB by omega)]
          ring
        rw [e]
        exact hK _ _ _ (by omega) (by omega) (by omega)
    · -- the off-diagonal quadrant on the uplo side: what the Combiner wrote
      have hcase : (a.uplo = rocblas_fill.lower ∧ IB ≤ r ∧ c < IB) ∨
          (a.uplo = rocblas_fill.upper ∧ r < IB ∧ IB ≤ c) := by
        rcases hu with hu | hu
        · left
          refine ⟨hu, ?_⟩
          by_contra hc'
          apply hdiag
          have : ¬ (r < IB ∧ IB ≤ c) := fun h => hnot (Or.inl ⟨hu, h⟩)
          omega
        · right
          refine ⟨hu, ?_⟩
          by_contra hc'
          apply hdiag
          have : ¬ (c < IB ∧ IB ≤ r) := fun h => hnot (Or.inr ⟨hu, h⟩)
          omega
      rcases hcase with ⟨hu', h1, h2⟩ | ⟨hu', h1, h2⟩
      · have e : (kn : Int) * NB * NB + c * NB + r =
            invA21_invA12_offset NB IB a.uplo + ((kn : Int) * (NB * NB)
              + ((c.toNat : Nat) : Int) * NB + (((r - IB).toNat : Nat) : Int)) := by
          unfold invA21_invA12_offset
          rw [if_pos hu', Int.toNat_of_nonneg hc0,
            Int.toNat_of_nonneg (show 0 ≤ r - IB by omega)]
          ring
        rw [e]
        exact combiner_output_determined NB IB a.uplo a.lda _ hNB A _ _ _ _ kn _ _ hk
          (by omega) (by omega) hK
      · have e : (kn : Int) * NB * NB + c * NB + r =
            invA21_invA12_offset NB IB a.uplo + ((kn : Int) * (NB * NB)
              + (((c - IB).toNat : Nat) : Int) * NB + ((r.toNat : Nat) : Int)) := by
          unfold invA21_invA12_offset
          rw [if_neg (by rw [hu']; decide), Int.toNat_of_nonneg hr0,
            Int.toNat_of_nonneg (show 0 ≤ c - IB by omega)]
          ring
        rw [e]
        exact combiner_output_determined NB IB a.uplo a.lda _ hNB A _ _ _ _ kn _ _ hk
          (by omega) (by omega) hK
  · intro hun
    unfold untouched_quadrant at hun
    have hopp : opposite_triangle a.uplo r c := by
      unfold opposite_triangle
      rcases hun with ⟨h1, h2, h3⟩ | ⟨h1, h2, h3⟩
      · exact Or.inl ⟨h1, by omega⟩
      · exact Or.inr ⟨h1, by omega⟩
    have hoff : (r < IB ∧ IB ≤ c) ∨ (c < IB ∧ IB ≤ r) := by
      rcases hun with ⟨-, h2, h3⟩ | ⟨-, h2, h3⟩
      · exact Or.inl ⟨h2, h3⟩
      · exact Or.inr ⟨h2, h3⟩
    have hkeep : ∀ buf : Int → F,
        (gemm_batched_spec (second_gemm NB IB a.uplo (a.n / NB))
          (gemm_batched_spec (first_gemm NB IB a.uplo a.lda (a.n / NB))
            ⟨A, hipLaunchKernel NB IB P (a.n / NB * 2) a.uplo a.diag (a.n / NB * NB) A a.lda buf,
              P.scratch⟩)).invA ((kn : Int) * NB * NB + c * NB + r) =
          buf ((kn : Int) * NB * NB + c * NB + r) := by
      intro buf
      rw [gemm_batched_spec_frame _ _ _
          (opposite_not_second_gemm_write NB IB a.uplo _ kn r c hNB hu hr0 hr hc0 hc hopp),
        hfirst]
      exact foldl_kernel_frame NB IB P hframe a.uplo a.diag _ A a.lda buf _ _
        (fun i _ => off_diagonal_not_kernel_write NB IB i kn r c hNB hr0 hr hc0 hc hoff)
    exact ⟨hkeep invA, hkeep invA'⟩

theorem output_determined_outside_untouched_quadrant_witness :
    (rocblas_trtri_trsm_template 4 2 (all_succeed ℚ)
        { lower_4x4 with invA := some (fun _ => 7) }).entry (0 * 4 * 4 + 0 * 4 + 2) =
      (rocblas_trtri_trsm_template 4 2 (all_succeed ℚ)
        { lower_4x4 with invA := some (fun _ => 0) }).entry (0 * 4 * 4 + 0 * 4 + 2) := by
  obtain ⟨out, out', h1, h2, h3⟩ := output_determined_outside_untouched_quadrant 4 2
    (all_succeed ℚ) lower_4x4 (buffer_of [2, 1, 1, 1, 0, 3, 1, 1, 0, 0, 4, 1, 0, 0, 0, 5])
    (fun _ => 7) (fun _ => 0)
    (by decide) (by decide) (by decide) (by decide) rfl (by decide) (by decide) (by decide)
    rfl rfl rfl (reference_trtri_device_frame _ _ _ _ _)
    (reference_trtri_device_ignores_destination _ _ _ _ _)
    (reference_gemm_batched_exact _ _ _ _ _)
  have e := (h3 0 2 0 (by decide) (by decide) (by decide) (by decide) (by decide) (by decide)).1
    (by unfold untouched_quadrant; decide)
  simp only [Outcome.entry, h1, h2, Option.map_some']
  rw [e]

/-- The left operand of the second batched multiply is the quadrant the first
one took as its right operand, for either `uplo`. -/
theorem second_gemm_left_operand_eq_first_right {F : Type} [Field F] (NB IB : Int)
    (uplo : rocblas_fill) (lda blocks : Int) :
    (second_gemm NB IB uplo blocks : GemmCall F).A =
      (first_gemm NB IB uplo lda blocks : GemmCall F).B :=
  rfl

/-- For upper the offset of the left operand of the first batched multiply is
the offset of `A12`, `IB` columns to the right, only when `lda = NB`. -/
theorem upper_first_gemm_offset_right_iff (NB IB lda : Int) (hIB : 0 < IB) :
    A12_A21_offset NB IB rocblas_fill.upper = IB * lda ↔ lda = NB := by
  unfold A12_A21_offset
  rw [if_neg (by decide)]
  constructor
  · intro h
    exact (Int.eq_of_mul_eq_mul_left (by omega) h).symm
  · intro h
    rw [h]

end TrtriTrsm
